import Mathlib

/-!
Verification development for the MarkBind incremental build orchestrator
(`packages/core/src/Site/index.js`).

The JavaScript source is shallowly embedded: mutable `Site` state becomes
explicit state records, timestamps (`new Date()`) become a `Nat` clock that
advances at every suspension point, and the mutable field
`stopGenerationTimeThreshold` becomes a function `thr : Nat → Nat` giving the
value of the threshold at each instant (`stopOngoingBuilds`, executed at
instant `u`, makes the value `u` from then on, so realizable histories are
monotone).  Promise rejection is modelled with `Except`, and a promise that
never settles with `Option.none`.
-/

/-! ## Page-set resolution (`collectAddressablePages`) -/

/-- The optional per-page configuration properties carried by a page entry
(`title`, `layout`, `frontmatter`, `searchable`, `externalScripts`).
A property that is absent / `undefined` in JS is `none`. -/
inductive PField
  | title
  | layout
  | frontmatter
  | searchable
  | externalScripts
  deriving DecidableEq, Repr

/-- A property assignment: each field is either absent (`none`) or a value. -/
def Props := PField → Option String

/-- The all-absent property assignment (a JS object with none of the keys). -/
def Props.empty : Props := fun _ => none

/-- The `src` key of a page entry in `site.json`: absent, a single path, or a
list of paths (`Array.isArray(page.src)`). -/
inductive SrcSpec
  | noSrc
  | one (s : String)
  | many (ss : List String)

/-- One entry of `siteConfig.pages`. `glob` is kept abstract (`none` = absent;
`some ""` is falsy in JS, like an empty string pattern). -/
structure ConfigPage where
  src : SrcSpec
  glob : Option String
  props : Props

/-- An expanded entry: one concrete `src` path plus its properties.  This is
the shape of the objects in `pagesFromSrc` and `pagesFromGlobs`. -/
structure PEntry where
  src : String
  props : Props

/-- JS truthiness of `page.src` in `pages.filter(page => page.src)`:
an empty string is falsy, an array (even empty) is truthy. -/
def srcTruthy : SrcSpec → Bool
  | .noSrc => false
  | .one s => s ≠ ""
  | .many _ => true

/-- JS truthiness of `page.glob`. -/
def globTruthy (p : ConfigPage) : Bool :=
  match p.glob with
  | none => false
  | some s => s ≠ ""

/-- Splitting one explicit entry into one entry per `src` path:
`Array.isArray(page.src) ? page.src.map(pageSrc => ({ ...page, src: pageSrc })) : [page]`. -/
def expandSrc (p : ConfigPage) : List PEntry :=
  match p.src with
  | .noSrc => []
  | .one s => [⟨s, p.props⟩]
  | .many ss => ss.map fun s => ⟨s, p.props⟩

/-- `pagesFromSrc`: the explicit entries, split into one entry per path. -/
def pagesFromSrc (pages : List ConfigPage) : List PEntry :=
  (pages.filter fun p => srcTruthy p.src).flatMap expandSrc

/-- The properties a glob-derived entry carries: the source builds
`{ src: filePath, searchable, layout, frontmatter }`, so `title` and
`externalScripts` are absent. -/
def globEntryProps (p : ConfigPage) : Props := fun f =>
  match f with
  | .searchable => p.props .searchable
  | .layout => p.props .layout
  | .frontmatter => p.props .frontmatter
  | _ => none

/-- `pagesFromGlobs`: glob entries expanded through the file lister.
`walk` abstracts `getPageGlobPaths` (an external `walkSync` over the site
root with the entry-specific globs and ignores). -/
def pagesFromGlobs (walk : ConfigPage → List String) (pages : List ConfigPage) : List PEntry :=
  (pages.filter globTruthy).flatMap fun p => (walk p).map fun fp => ⟨fp, globEntryProps p⟩

/-- The duplicate scan
`pagesFromSrc.filter(page => set.size === set.add(page.src).size)`:
an element is emitted each time it has already been seen. -/
def jsDupsAux (seen : List String) : List String → List String
  | [] => []
  | x :: xs => if seen.contains x then x :: jsDupsAux seen xs else jsDupsAux (x :: seen) xs

/-- Lodash `_.uniq`: keep the first occurrence of each element. -/
def jsUniqAux (seen : List String) : List String → List String
  | [] => []
  | x :: xs => if seen.contains x then jsUniqAux seen xs else x :: jsUniqAux (x :: seen) xs

/-- `_.uniq l`. -/
def jsUniq (l : List String) : List String := jsUniqAux [] l

/-- JS object spread `{ ...old, ...new }` where `new` has had its `undefined`
values removed by `_.omitBy(page, _.isUndefined)`: a present (non-`none`)
property of `new` wins, otherwise the old value is kept. -/
def mergeProps (old new : Props) : Props := fun f =>
  match new f with
  | some v => some v
  | none => old f

/-- `filteredPages[page.src] = page.src in filteredPages ? {...old, ...page} : page`,
on an insertion-ordered association list (JS objects keep insertion order). -/
def insertMerge (m : List (String × Props)) (e : PEntry) : List (String × Props) :=
  if m.any (fun kv => kv.1 = e.src) then
    m.map fun kv => if kv.1 = e.src then (kv.1, mergeProps kv.2 e.props) else kv
  else m ++ [(e.src, e.props)]

/-- `collectAddressablePages`: split explicit entries, fail on duplicate
explicit sources, expand globs, then merge glob-derived entries first and
explicit entries second into an insertion-ordered map. -/
def collectAddressablePages (walk : ConfigPage → List String) (pages : List ConfigPage) :
    Except String (List (String × Props)) :=
  if jsDupsAux [] ((pagesFromSrc pages).map PEntry.src) ≠ [] then
    .error ("Duplicate page entries found in site config: "
      ++ String.intercalate ", " (jsUniq (jsDupsAux [] ((pagesFromSrc pages).map PEntry.src))))
  else
    .ok ((pagesFromGlobs walk pages ++ pagesFromSrc pages).foldl insertMerge [])

/-- Lookup in the insertion-ordered map. -/
def lookupKey (m : List (String × Props)) (s : String) : Option Props :=
  (m.find? fun kv => kv.1 = s).map (·.2)

/-- The keys of the map. -/
def mapKeys (m : List (String × Props)) : List String := m.map (·.1)

/-- All entries (glob-derived first, then explicit) that target path `s`,
in processing order. -/
def entriesFor (walk : ConfigPage → List String) (pages : List ConfigPage) (s : String) :
    List PEntry :=
  (pagesFromGlobs walk pages ++ pagesFromSrc pages).filter fun e => e.src = s

/-- The value of field `f` after a later-non-absent-value-wins pass over `es`. -/
def lastDef (f : PField) (es : List PEntry) : Option String :=
  es.foldl (fun a e => match e.props f with | some v => some v | none => a) none

/-- One merge step of the `filteredPages` accumulation restricted to a single
key: an absent key is created with the entry properties, a present key is
spread-merged. -/
def mergeStep (acc : Option Props) (e : PEntry) : Option Props :=
  match acc with
  | none => some e.props
  | some P => some (mergeProps P e.props)

/-- Merging a whole run of entry properties onto a starting assignment. -/
def mergeAll (P0 : Props) (fs : List PEntry) : Props :=
  fs.foldl (fun P e => mergeProps P e.props) P0

/-! ## Site index persistence (`writeSiteData`) -/

/-- The projection of a built `Page` artifact that `writeSiteData` reads.
`headings` is `none` while the page has never been generated
(`page.headings` is `undefined`, which is falsy in the filter). -/
structure SitePage where
  src : String
  searchable : Bool
  headings : Option String
  title : String
  keywords : String
  deriving DecidableEq, Repr

/-- One element of the persisted `pages` array of `siteData.json`. -/
structure SiteIndexEntry where
  src : String
  title : String
  headings : String
  headingKeywords : String
  deriving DecidableEq, Repr

/-- The persisted site index object. -/
structure SiteIndex where
  enableSearch : Bool
  pages : List SiteIndexEntry
  deriving DecidableEq, Repr

/-- `writeSiteData`: the site data is built from
`this.pages.filter(page => page.pageConfig.searchable && page.headings)`,
so a page appears iff it is flagged searchable AND its headings are present. -/
def writeSiteData (enableSearch : Bool) (pages : List SitePage) : SiteIndex :=
  { enableSearch := enableSearch
    pages := (pages.filter fun p => p.searchable && p.headings.isSome).map fun p =>
      { src := p.src, title := p.title, headings := p.headings.getD ""
        headingKeywords := p.keywords } }

/-! ## Page navigation (`changeCurrentPage`) -/

/-- The slice of `Site` state read and written by `changeCurrentPage`. -/
structure LazySite where
  rootPath : String
  currentPageViewed : String
  toRebuild : List String
  deriving DecidableEq, Repr

/-- Model of `path.join(this.rootPath, normalizedUrl)`. -/
def joinPath (a b : String) : String := a ++ "/" ++ b

/-- `changeCurrentPage`: set `currentPageViewed` unconditionally; when the
resolved path is pending, run `beforeSiteGenerate` and dispatch (the
debounced) `rebuildPageBeingViewed` on it and return `true`, else `false`.
The third component records the dispatched rebuild target, if any. -/
def changeCurrentPage (site : LazySite) (normalizedUrl : String) :
    LazySite × Bool × Option String :=
  let cpv := joinPath site.rootPath normalizedUrl
  let site2 := { site with currentPageViewed := cpv }
  if site2.toRebuild.contains cpv then
    (site2, true, some cpv)
  else
    (site2, false, none)

/-! ## Change-driven rebuild (`regenerateAffectedPages`) -/

/-- The projection of a built `Page` artifact used by the rebuild filter:
its normalized source key and its dependency predicate
(`page.isDependency`, external). -/
structure DepPage where
  key : String
  isDep : String → Bool

/-- The slice of `Site` state read and written by `regenerateAffectedPages`.
`userVariablesPath` is `path.resolve(this.rootPath, USER_VARIABLES_PATH)`
(the constant lives outside the excerpted source). -/
structure RegenSite where
  pages : List DepPage
  onePagePath : Bool
  currentOpenedPages : List String
  toRebuild : List String
  forceReload : Bool
  userVariablesPath : String

/-- `collectUserDefinedVariablesMapIfNeeded` returns whether the user-defined
variables file is among the changed paths (`filePaths.includes(variablesPath)`);
the variable re-collection itself is an external side effect. -/
def collectUserDefinedVariablesMapIfNeeded (site : RegenSite) (filePaths : List String) : Bool :=
  filePaths.contains site.userVariablesPath

/-- JS `Set.prototype.add` on the insertion-ordered pending set. -/
def setAdd (l : List String) (k : String) : List String :=
  if l.contains k then l else l ++ [k]

/-- The accumulator of the page filter pass: the sparse
`openedPagesToRegenerate` array (indexed like `currentOpenedPages`), the
pending set, and the pages kept by the filter (`asyncPagesToRegenerate`). -/
structure RegenAcc where
  opened : List (Option DepPage)
  toRebuild : List String
  asyncPages : List DepPage

/-- One step of `this.pages.filter(...)` in `regenerateAffectedPages`:
an affected page is kept for the async task in full mode; in lazy mode it is
stored into the opened slot matching its key, or added to the pending set if
it is not currently opened. -/
def regenStep (site : RegenSite) (filePaths : List String) (shouldRebuildAll : Bool)
    (acc : RegenAcc) (page : DepPage) : RegenAcc :=
  if shouldRebuildAll || filePaths.any page.isDep then
    if site.onePagePath then
      match site.currentOpenedPages.findIdx? (fun pagePath => pagePath = page.key) with
      | none => { acc with toRebuild := setAdd acc.toRebuild page.key }
      | some idx => { acc with opened := acc.opened.set idx (some page) }
    else
      { acc with asyncPages := acc.asyncPages ++ [page] }
  else acc

/-- `regenerateAffectedPages`, up to the construction of the two generation
tasks: returns (compacted `openedPagesToRegenerate`, new pending set,
`asyncPagesToRegenerate`).  The JS sparse array is modelled with a
fixed-length list of options (assignments happen at indices returned by
`findIndex` over `currentOpenedPages`, hence in bounds); the final
`.filter(page => page)` is the compaction `filterMap id`. -/
def regenerateAffectedPages (site : RegenSite) (filePaths : List String) :
    List DepPage × List String × List DepPage :=
  ((site.pages.foldl
      (regenStep site filePaths
        (collectUserDefinedVariablesMapIfNeeded site filePaths || site.forceReload))
      ⟨List.replicate site.currentOpenedPages.length none, site.toRebuild, []⟩).opened.filterMap id,
   (site.pages.foldl
      (regenStep site filePaths
        (collectUserDefinedVariablesMapIfNeeded site filePaths || site.forceReload))
      ⟨List.replicate site.currentOpenedPages.length none, site.toRebuild, []⟩).toRebuild,
   (site.pages.foldl
      (regenStep site filePaths
        (collectUserDefinedVariablesMapIfNeeded site filePaths || site.forceReload))
      ⟨List.replicate site.currentOpenedPages.length none, site.toRebuild, []⟩).asyncPages)

/-- A page lands in one of the three destinations of the filter pass. -/
def inBucket (p : DepPage) (acc : RegenAcc) : Prop :=
  some p ∈ acc.opened ∨ p.key ∈ acc.toRebuild ∨ p ∈ acc.asyncPages

/-- Invariant of the filter pass: the sparse array keeps the length of
`currentOpenedPages`, and a filled slot holds an affected known page whose
key is the opened path at that index. -/
def RegenInv (site : RegenSite) (filePaths : List String) (sra : Bool)
    (acc : RegenAcc) : Prop :=
  acc.opened.length = site.currentOpenedPages.length ∧
  ∀ i (h : i < acc.opened.length) p, acc.opened.get ⟨i, h⟩ = some p →
    p ∈ site.pages ∧ (sra || filePaths.any p.isDep) = true ∧
      site.currentOpenedPages.get? i = some p.key

/-! ## The batch scheduler

Every `await` boundary advances the clock by one; a synchronous block runs at
one instant.  `thr : Nat → Nat` is the history of
`this.stopGenerationTimeThreshold`: `thr t` is its value at instant `t`.
`stopOngoingBuilds`, executed at instant `u`, sets the value to `u`, so a
realizable history is monotone and satisfies `thr t ≤ t`; theorems take the
monotonicity they need as a hypothesis. -/

/-- Trace events: a page generation is dispatched / settles, or a key is
removed from the pending set. -/
inductive Ev
  | dispatch (key : String)
  | complete (key : String)
  | del (key : String)
  deriving DecidableEq, Repr

/-- The scheduler-relevant projection of a `Page` artifact: its normalized
source key (`FsUtil.removeExtension(page.pageConfig.sourcePath)`), the
`sourcePath` used in error messages, and whether its external `generate`
resolves or rejects. -/
structure SPage where
  key : String
  src : String
  genOk : Bool
  deriving DecidableEq, Repr

/-- The mutable orchestrator state threaded through generation: the clock,
the pending set `toRebuild`, a ghost flag recording that some cancellation
branch was taken, and the ghost event trace. -/
structure GenState where
  now : Nat
  toRebuild : List String
  stopped : Bool
  events : List Ev
  deriving DecidableEq, Repr

/-- The loop body of `generatePagesSequential`
(`utils.sequentialAsyncForEach` over `pages`): before each page the
cancellation guard `this.backgroundBuildMode && startTime <
this.stopGenerationTimeThreshold` is checked; a failing `generate` throws
`Error while generating ...` and aborts the remaining pages; a successful one
removes the page key from `toRebuild`. -/
def generatePagesSequentialGo (bg : Bool) (thr : Nat → Nat) (startTime : Nat) :
    List SPage → GenState → Bool → Except (String × GenState) (Bool × GenState)
  | [], g, c => .ok (c, g)
  | p :: rest, g, c =>
    if bg = true ∧ startTime < thr g.now then
      generatePagesSequentialGo bg thr startTime rest
        { g with now := g.now + 1, stopped := true } false
    else if p.genOk then
      generatePagesSequentialGo bg thr startTime rest
        { g with
          now := g.now + 1
          toRebuild := g.toRebuild.erase p.key
          events := g.events ++ [.dispatch p.key, .complete p.key, .del p.key] } c
    else
      .error ("Error while generating " ++ p.src,
        { g with
          now := g.now + 1
          events := g.events ++ [.dispatch p.key, .complete p.key] })

/-- `generatePagesSequential`: record `startTime = new Date()` and run the
loop with `isCompleted = true`. -/
def generatePagesSequential (bg : Bool) (thr : Nat → Nat) (pages : List SPage)
    (g : GenState) : Except (String × GenState) (Bool × GenState) :=
  generatePagesSequentialGo bg thr g.now pages g true

/-- The state of one `generatePagesAsyncThrottled` promise:
the not-yet-dispatched callback queue (after the initial `splice`), the
dispatched generations still in flight, the progress counters, the
`context.isCompleted` flag, and the settlement of the promise (`none` while
pending; `some (.ok b)` after `resolve(b)`; `some (.error e)` after
`reject(e)`; only the first settlement counts). -/
structure AsyncState where
  queue : List SPage
  inflight : List SPage
  numPagesGenerated : Nat
  numPagesToGenerate : Nat
  isCompleted : Bool
  settle : Option (Except String Bool)
  g : GenState
  deriving Repr

/-- First settlement wins (`resolve`/`reject` on a settled promise are
no-ops). -/
def settleWith (s : AsyncState) (r : Except String Bool) : AsyncState :=
  if s.settle.isSome then s else { s with settle := some r }

/-- Placeholder page (never observable: the scheduler only indexes within
bounds). -/
def defaultSPage : SPage := ⟨"", "", true⟩

/-- One completion event of the throttled pool: the scheduler environment
picks (via `choice`) which in-flight generation settles next.  On success the
key leaves `toRebuild` and `generateProgressBarStatus` runs: its guard may
cancel; otherwise progress advances and, when queued callbacks remain, the
*last* one is popped (`pageGenerationQueue.pop()()`), whose own pre-generate
guard is re-evaluated at the same instant; with an empty queue the promise
resolves `true` once all pages are generated.  On failure the promise
rejects. -/
def asyncStep (bg : Bool) (thr : Nat → Nat) (startTime : Nat) (s : AsyncState)
    (choice : Nat) : AsyncState :=
  let i := choice % s.inflight.length
  let p := s.inflight.getD i defaultSPage
  let s1 : AsyncState := { s with
    inflight := s.inflight.eraseIdx i
    g := { s.g with
      now := s.g.now + 1
      events := s.g.events ++ [.complete p.key] } }
  if p.genOk then
    let s2 : AsyncState := { s1 with
      g := { s1.g with
        toRebuild := s1.g.toRebuild.erase p.key
        events := s1.g.events ++ [.del p.key] } }
    if bg = true ∧ startTime < thr s2.g.now then
      if s2.isCompleted then
        settleWith { s2 with
          isCompleted := false
          g := { s2.g with stopped := true } } (.ok false)
      else { s2 with g := { s2.g with stopped := true } }
    else
      match s2.queue.getLast? with
      | some q =>
        if bg = true ∧ startTime < thr s2.g.now then
          if s2.isCompleted then
            settleWith { s2 with
              numPagesGenerated := s2.numPagesGenerated + 1
              queue := s2.queue.dropLast
              isCompleted := false
              g := { s2.g with stopped := true } } (.ok false)
          else { s2 with
            numPagesGenerated := s2.numPagesGenerated + 1
            queue := s2.queue.dropLast
            g := { s2.g with stopped := true } }
        else
          { s2 with
            numPagesGenerated := s2.numPagesGenerated + 1
            queue := s2.queue.dropLast
            inflight := s2.inflight ++ [q]
            g := { s2.g with events := s2.g.events ++ [.dispatch q.key] } }
      | none =>
        if s2.numPagesGenerated + 1 = s2.numPagesToGenerate then
          settleWith { s2 with numPagesGenerated := s2.numPagesGenerated + 1 } (.ok true)
        else { s2 with numPagesGenerated := s2.numPagesGenerated + 1 }
  else
    settleWith s1 (.error ("Error while generating " ++ p.src))

/-- Drive the pool until no generation is in flight (the `sched` list picks
the completion order).  `fuel` bounds the number of completion events; the
initial page count always suffices. -/
def asyncLoop (bg : Bool) (thr : Nat → Nat) (startTime : Nat) :
    Nat → List Nat → AsyncState → AsyncState
  | 0, _, s => s
  | fuel + 1, sched, s =>
    if s.inflight.isEmpty then s
    else asyncLoop bg thr startTime fuel sched.tail (asyncStep bg thr startTime s (sched.headD 0))

/-- The synchronous prologue of `generatePagesAsyncThrottled`: build the
callback queue, `splice` off the first `K` callbacks and run each; they all
observe the same instant, so either all of them pass the pre-generate guard
and start generating, or (in background mode with the horizon already past
the start time) the first cancels the task and the rest return.  With no
pages at all, nothing runs and the promise stays pending. -/
def asyncInit (bg : Bool) (thr : Nat → Nat) (K : Nat) (pages : List SPage)
    (g : GenState) : AsyncState :=
  if (pages.take K).isEmpty then
    ⟨pages.drop K, [], 0, pages.length, true, none, g⟩
  else if bg = true ∧ g.now < thr g.now then
    ⟨pages.drop K, [], 0, pages.length, false, some (.ok false),
      { g with stopped := true }⟩
  else
    ⟨pages.drop K, pages.take K, 0, pages.length, true, none,
      { g with events := g.events ++ (pages.take K).map (fun p => .dispatch p.key) }⟩

/-- `generatePagesAsyncThrottled` with pool bound `K`
(`MAX_CONCURRENT_PAGE_GENERATION_PROMISES`): the recorded start time is the
entry instant. -/
def generatePagesAsyncThrottled (bg : Bool) (thr : Nat → Nat) (K : Nat)
    (pages : List SPage) (g : GenState) (sched : List Nat) : AsyncState :=
  asyncLoop bg thr g.now pages.length sched (asyncInit bg thr K pages g)

/-- Modelled from the spec: the concurrency constant
`MAX_CONCURRENT_PAGE_GENERATION_PROMISES` lives in `Site/constants.js`,
outside the excerpted source; the spec fixes it as "a fixed constant `K`
(e.g. 8)". -/
def MAX_CONCURRENT_PAGE_GENERATION_PROMISES : Nat := 8

/-- A generation task: `{ mode: 'sequential' | 'async', pages }`. -/
inductive TaskMode
  | sequential
  | async
  deriving DecidableEq, Repr

/-- One page generation task. -/
structure GenTask where
  mode : TaskMode
  pages : List SPage
  deriving DecidableEq, Repr

/-- Await one task: a sequential task always settles; an async task settles
as its promise does — `none` means the promise never settles and the await
suspends forever. -/
def settleOutcome (a : AsyncState) : Option (Except (String × GenState) (Bool × GenState)) :=
  match a.settle with
  | none => none
  | some (.ok b) => some (.ok (b, a.g))
  | some (.error e) => some (.error (e, a.g))

/-- Run one task of `runPageGenerationTasks` according to its mode. -/
def runTask (bg : Bool) (thr : Nat → Nat) (K : Nat) (t : GenTask) (sched : List Nat)
    (g : GenState) : Option (Except (String × GenState) (Bool × GenState)) :=
  match t.mode with
  | .sequential => some (generatePagesSequential bg thr t.pages g)
  | .async => settleOutcome (generatePagesAsyncThrottled bg thr K t.pages g sched)

/-- The task loop of `runPageGenerationTasks`
(`utils.sequentialAsyncForEach` over the tasks): before each task the guard
`this.backgroundBuildMode && startTime < this.stopGenerationTimeThreshold`
is checked against the *run* start time; a tripped guard marks the run
incomplete and skips the task, otherwise `isCompleted` is overwritten with
the task outcome.  A rejected task rejects the whole run; a task that never
settles makes the run hang (`none`). -/
def runTasksGo (bg : Bool) (thr : Nat → Nat) (K : Nat) (runStart : Nat) :
    List GenTask → List (List Nat) → Bool → GenState →
      Option (Except String Bool) × GenState
  | [], _, c, g => (some (.ok c), g)
  | t :: rest, scheds, _c, g =>
    if bg = true ∧ runStart < thr g.now then
      runTasksGo bg thr K runStart rest scheds.tail false
        { g with now := g.now + 1, stopped := true }
    else
      match runTask bg thr K t (scheds.headD []) g with
      | none => (none, g)
      | some (.error (e, g2)) => (some (.error e), g2)
      | some (.ok (b, g2)) =>
        runTasksGo bg thr K runStart rest scheds.tail b { g2 with now := g2.now + 1 }

/-- `runPageGenerationTasks`: record the start time, then run the tasks in
order with `isCompleted` initially `true`. -/
def runPageGenerationTasks (bg : Bool) (thr : Nat → Nat) (K : Nat)
    (tasks : List GenTask) (scheds : List (List Nat)) (g : GenState) :
    Option (Except String Bool) × GenState :=
  runTasksGo bg thr K g.now tasks scheds true g

/-- `_rebuildPageBeingViewed`, one viewed page at a time: find the page for
the url; if found, *first* remove the key from `toRebuild`, then dispatch and
await its `generate` (failures are caught and logged by `rejectHandler`). -/
def rebuildPageBeingViewedGo (pages : List SPage) :
    List String → GenState → GenState
  | [], g => g
  | url :: rest, g =>
    match pages.find? (fun p => p.key = url) with
    | none => rebuildPageBeingViewedGo pages rest g
    | some p =>
      rebuildPageBeingViewedGo pages rest
        { g with
          now := g.now + 1
          toRebuild := g.toRebuild.erase url
          events := g.events ++ [.del url, .dispatch p.key, .complete p.key] }

/-- `_rebuildPageBeingViewed`: dedupe the requested urls, then process each
(the JS runs them concurrently via `Promise.all`; each url's delete-dispatch-
complete order is preserved, and we take one interleaving). -/
def rebuildPageBeingViewed (pages : List SPage) (normalizedUrls : List String)
    (g : GenState) : GenState :=
  rebuildPageBeingViewedGo pages (jsUniq normalizedUrls) g

/-! ### Invariants of the throttled pool -/

/-- Core promise/flag invariant of the pool, relative to the ghost `stopped`
value `sb` at task entry: the ghost tracks cancellation exactly; a cancelled
context has a settled promise; `resolve(false)` comes only from cancellation;
`resolve(true)` only with a clean context and a drained pool; while pending,
progress plus in-flight plus queued callbacks account for every page; and a
pending pool with queued work still has work in flight. -/
def AsyncInv (sb : Bool) (s : AsyncState) : Prop :=
  (s.g.stopped = (sb || !s.isCompleted)) ∧
  (s.isCompleted = false → s.settle.isSome) ∧
  (s.settle = some (.ok false) → s.isCompleted = false) ∧
  (s.settle = some (.ok true) → s.isCompleted = true ∧ s.inflight = []) ∧
  (s.settle = none →
    s.numPagesGenerated + s.inflight.length + s.queue.length = s.numPagesToGenerate) ∧
  (s.settle = none → s.queue ≠ [] → s.inflight ≠ [])

/-- Provenance invariant: in-flight and queued pages come from the task's
page list, a rejection names a failing page of the list, and while the
promise is pending every page is queued, in flight, or generates
successfully. -/
def AsyncPagesInv (pages : List SPage) (s : AsyncState) : Prop :=
  (∀ p ∈ s.inflight, p ∈ pages) ∧
  (∀ p ∈ s.queue, p ∈ pages) ∧
  (∀ e, s.settle = some (.error e) →
    ∃ p ∈ pages, p.genOk = false ∧ e = "Error while generating " ++ p.src) ∧
  (s.settle = none → ∀ p ∈ pages, p ∈ s.queue ∨ p ∈ s.inflight ∨ p.genOk = true)

/-- A cancelled context witnesses a horizon observation beyond the recorded
start time. -/
def AsyncTripInv (bg : Bool) (thr : Nat → Nat) (startTime : Nat) (s : AsyncState) : Prop :=
  s.isCompleted = false → bg = true ∧ ∃ u, u ≤ s.g.now ∧ startTime < thr u

/-- The combined pool invariant. -/
def AsyncAll (bg : Bool) (thr : Nat → Nat) (startTime : Nat) (sb : Bool)
    (pages : List SPage) (s : AsyncState) : Prop :=
  AsyncInv sb s ∧ AsyncPagesInv pages s ∧ AsyncTripInv bg thr startTime s ∧
  (s.settle = none → s.numPagesGenerated < s.numPagesToGenerate ∨ s.numPagesToGenerate = 0)

/-- The keys of the dispatch events of a trace, in order. -/
def dispatches (evs : List Ev) : List String :=
  evs.filterMap (fun e => match e with | .dispatch k => some k | _ => none)

/-- Invariant of a pool already cancelled by `resolve(false)`: the promise is
settled false, the context is marked incomplete, and a horizon observation
past the start time has occurred. -/
def Cancelled (thr : Nat → Nat) (startTime : Nat) (s : AsyncState) : Prop :=
  s.settle = some (.ok false) ∧ s.isCompleted = false ∧
  (∃ u, u ≤ s.g.now ∧ startTime < thr u)

/-- Scan of a trace checking that every pending-set removal (`del k`) occurs
immediately after the completion of that same page's generate call
(`complete k`): the state carries the key of an immediately preceding
completion, if any. -/
def delsOk : Option String → List Ev → Bool
  | _, [] => true
  | last, .del k :: rest => (last = some k) && delsOk none rest
  | _, .complete k :: rest => delsOk (some k) rest
  | _, .dispatch _ :: rest => delsOk none rest

/-- A trace in which every removal from the pending set happens exactly at
the completion of that page's generate call. -/
def delsPaired (evs : List Ev) : Bool := delsOk none evs

/-- Contribution of one event to the number of generations in flight. -/
def evDelta : Ev → Int
  | .dispatch _ => 1
  | .complete _ => -1
  | .del _ => 0

/-- Net number of generations in flight after a trace. -/
def countOf (evs : List Ev) : Int := (evs.map evDelta).sum

/-- Number of completed generate calls in a trace. -/
def completesCount (evs : List Ev) : Nat :=
  evs.countP (fun e => match e with | .complete _ => true | _ => false)

/-- Event is not a completion (used to delimit the prefix of a trace before
the first completion is observed). -/
def notCompleteEv : Ev → Bool
  | .complete _ => false
  | _ => true

/-- The combined invariant of one throttled task run outside background mode:
queue shape and last-in-first-out dispatch record, the in-flight count read
off the trace, the pool bound on every trace prefix, progress accounting,
page provenance, and the settlement shape. -/
def C4Inv (K : Nat) (pages : List SPage) (s : AsyncState) : Prop :=
  (∃ j, j ≤ (pages.drop K).length ∧ s.queue = (pages.drop K).take j ∧
    dispatches s.g.events
      = (pages.take K).map (fun p => p.key)
        ++ ((pages.drop K).drop j).reverse.map (fun p => p.key)) ∧
  countOf s.g.events = s.inflight.length ∧
  s.inflight.length ≤ K ∧
  (∀ i, countOf (s.g.events.take i) ≤ (K : Int)) ∧
  completesCount s.g.events = s.numPagesGenerated ∧
  s.numPagesToGenerate = pages.length ∧
  (∀ p ∈ s.inflight, p ∈ pages) ∧
  (s.settle = none ∨ (s.settle = some (.ok true) ∧ s.inflight = [] ∧ s.queue = [] ∧
    s.numPagesGenerated = pages.length)) ∧
  (s.settle = none →
    s.numPagesGenerated + s.inflight.length + s.queue.length = pages.length)

/-! ### Lemmas about the duplicate scan and uniq -/

theorem contains_iff_mem (l : List String) (x : String) : l.contains x = true ↔ x ∈ l := by
  simp [List.contains]

theorem mem_jsDupsAux (s : String) (seen l : List String) :
    s ∈ jsDupsAux seen l ↔ s ∈ l ∧ (s ∈ seen ∨ 2 ≤ l.count s) := by
  induction l generalizing seen with
  | nil => simp [jsDupsAux]
  | cons x xs ih =>
    by_cases hx : x ∈ seen
    · rw [jsDupsAux, if_pos ((contains_iff_mem seen x).2 hx)]
      by_cases hsx : s = x
      · subst hsx
        simp [List.count_cons, ih, hx]
      · simp only [List.mem_cons, List.count_cons, ih]
        have : (x == s) = false := by simp [Ne.symm hsx]
        simp [this, hsx]
    · rw [jsDupsAux, if_neg (by simp [contains_iff_mem, hx])]
      by_cases hsx : s = x
      · subst hsx
        rw [ih]
        have : (s == s) = true := by simp
        simp [List.count_cons, this, hx]
      · rw [ih]
        have : (x == s) = false := by simp [Ne.symm hsx]
        simp [List.count_cons, this, hsx]

theorem jsDupsAux_nil_iff (seen l : List String) :
    jsDupsAux seen l = [] ↔ (∀ x ∈ l, x ∉ seen) ∧ l.Nodup := by
  induction l generalizing seen with
  | nil => simp [jsDupsAux]
  | cons x xs ih =>
    by_cases hx : x ∈ seen
    · rw [jsDupsAux, if_pos ((contains_iff_mem seen x).2 hx)]
      simp only [List.nodup_cons]
      constructor
      · intro h
        exact absurd h (List.cons_ne_nil _ _)
      · rintro ⟨h1, _⟩
        exact absurd hx (h1 x (List.mem_cons_self _ _))
    · rw [jsDupsAux, if_neg (by simp [contains_iff_mem, hx])]
      rw [ih]
      simp only [List.nodup_cons]
      constructor
      · rintro ⟨h1, h2⟩
        refine ⟨?_, ?_, h2⟩
        · intro y hy
          rcases List.mem_cons.1 hy with h | h
          · exact h ▸ hx
          · exact fun hmem => (h1 y h) (List.mem_cons_of_mem _ hmem)
        · intro hxxs
          exact (h1 x hxxs) (List.mem_cons_self _ _)
      · rintro ⟨h1, h2, h3⟩
        refine ⟨?_, h3⟩
        intro y hy hmem
        rcases List.mem_cons.1 hmem with h | h
        · exact h2 (h ▸ hy)
        · exact h1 y (List.mem_cons_of_mem _ hy) h

theorem mem_jsUniqAux (s : String) (seen l : List String) :
    s ∈ jsUniqAux seen l ↔ s ∈ l ∧ s ∉ seen := by
  induction l generalizing seen with
  | nil => simp [jsUniqAux]
  | cons x xs ih =>
    by_cases hx : x ∈ seen
    · rw [jsUniqAux, if_pos ((contains_iff_mem seen x).2 hx)]
      rw [ih]
      constructor
      · rintro ⟨h1, h2⟩
        exact ⟨List.mem_cons_of_mem _ h1, h2⟩
      · rintro ⟨h1, h2⟩
        rcases List.mem_cons.1 h1 with h | h
        · exact absurd (h ▸ hx) h2
        · exact ⟨h, h2⟩
    · rw [jsUniqAux, if_neg (by simp [contains_iff_mem, hx])]
      by_cases hsx : s = x
      · subst hsx
        simp [hx]
      · simp only [List.mem_cons, hsx, false_or]
        rw [ih]
        simp [List.mem_cons, hsx]

theorem jsUniqAux_nodup (seen l : List String) : (jsUniqAux seen l).Nodup := by
  induction l generalizing seen with
  | nil => simp [jsUniqAux]
  | cons x xs ih =>
    by_cases hx : x ∈ seen
    · rw [jsUniqAux, if_pos ((contains_iff_mem seen x).2 hx)]
      exact ih seen
    · rw [jsUniqAux, if_neg (by simp [contains_iff_mem, hx])]
      refine List.nodup_cons.2 ⟨?_, ih _⟩
      intro hmem
      have := (mem_jsUniqAux x _ xs).1 hmem
      exact this.2 (List.mem_cons_self _ _)

/-! ### Lemmas about the insertion-ordered merge map -/

theorem jsUniqAux_congr (seen1 seen2 l : List String) (h : ∀ x, x ∈ seen1 ↔ x ∈ seen2) :
    jsUniqAux seen1 l = jsUniqAux seen2 l := by
  induction l generalizing seen1 seen2 with
  | nil => rfl
  | cons x xs ih =>
    rw [jsUniqAux, jsUniqAux]
    by_cases hx : x ∈ seen1
    · rw [if_pos ((contains_iff_mem seen1 x).2 hx),
        if_pos ((contains_iff_mem seen2 x).2 ((h x).1 hx))]
      exact ih seen1 seen2 h
    · have hx2 : x ∉ seen2 := fun h2 => hx ((h x).2 h2)
      rw [if_neg (by simp [contains_iff_mem, hx]), if_neg (by simp [contains_iff_mem, hx2])]
      refine congrArg _ (ih _ _ ?_)
      intro y
      simp only [List.mem_cons]
      exact or_congr Iff.rfl (h y)

theorem any_key_iff (m : List (String × Props)) (k : String) :
    (m.any fun kv => kv.1 = k) = true ↔ k ∈ mapKeys m := by
  simp only [List.any_eq_true, decide_eq_true_eq, mapKeys, List.mem_map]

theorem mapKeys_insertMerge (m : List (String × Props)) (e : PEntry) :
    mapKeys (insertMerge m e) =
      if e.src ∈ mapKeys m then mapKeys m else mapKeys m ++ [e.src] := by
  unfold insertMerge
  by_cases hmem : e.src ∈ mapKeys m
  · rw [if_pos ((any_key_iff m e.src).2 hmem), if_pos hmem]
    unfold mapKeys
    rw [List.map_map]
    refine List.map_congr_left ?_
    intro kv _
    by_cases h : kv.1 = e.src <;> simp [h]
  · rw [if_neg (fun h => hmem ((any_key_iff m e.src).1 h)), if_neg hmem]
    simp [mapKeys]

theorem mapKeys_foldl_insertMerge (es : List PEntry) (m : List (String × Props)) :
    mapKeys (es.foldl insertMerge m) =
      mapKeys m ++ jsUniqAux (mapKeys m) (es.map PEntry.src) := by
  induction es generalizing m with
  | nil => simp [jsUniqAux]
  | cons e rest ih =>
    rw [List.foldl_cons, ih, List.map_cons, jsUniqAux, mapKeys_insertMerge]
    by_cases hmem : e.src ∈ mapKeys m
    · rw [if_pos hmem, if_pos ((contains_iff_mem _ _).2 hmem)]
    · rw [if_neg hmem, if_neg (by simp [contains_iff_mem, hmem])]
      rw [jsUniqAux_congr (mapKeys m ++ [e.src]) (e.src :: mapKeys m) _
        (by intro y; simp only [List.mem_append, List.mem_cons, List.mem_singleton]; tauto)]
      simp

theorem lookupKey_mem_isSome (m : List (String × Props)) (s : String) :
    s ∈ mapKeys m ↔ (lookupKey m s).isSome := by
  induction m with
  | nil => simp [mapKeys, lookupKey]
  | cons kv rest ih =>
    by_cases hk : kv.1 = s
    · unfold lookupKey
      rw [List.find?_cons_of_pos _ (by simp [hk])]
      simp [mapKeys, hk]
    · unfold lookupKey
      rw [List.find?_cons_of_neg _ (by simp [hk])]
      unfold lookupKey at ih
      simp only [mapKeys, List.map_cons, List.mem_cons]
      rw [← ih]
      simp only [mapKeys]
      constructor
      · rintro (h | h)
        · exact absurd h.symm hk
        · exact h
      · exact Or.inr

theorem lookupKey_mapUpdate (m : List (String × Props)) (e : PEntry) (s : String) :
    lookupKey (m.map fun kv => if kv.1 = e.src then (kv.1, mergeProps kv.2 e.props) else kv) s =
      if e.src = s then (lookupKey m s).map (fun P => mergeProps P e.props)
      else lookupKey m s := by
  induction m with
  | nil =>
    by_cases hes : e.src = s <;> simp [lookupKey, hes]
  | cons kv rest ih =>
    by_cases hk : kv.1 = s
    · by_cases hke : kv.1 = e.src
      · have hes : e.src = s := hke ▸ hk
        rw [List.map_cons, if_pos hke]
        unfold lookupKey
        rw [List.find?_cons_of_pos _ (by simp [hk]), List.find?_cons_of_pos _ (by simp [hk])]
        simp [if_pos hes]
      · have hes : e.src ≠ s := fun h => hke (hk.trans h.symm)
        rw [List.map_cons, if_neg hke]
        unfold lookupKey
        rw [List.find?_cons_of_pos _ (by simp [hk]), List.find?_cons_of_pos _ (by simp [hk])]
        simp [if_neg hes]
    · rw [List.map_cons]
      have hhead : ((if kv.1 = e.src then (kv.1, mergeProps kv.2 e.props) else kv)).1 = kv.1 := by
        by_cases hke : kv.1 = e.src <;> simp [hke]
      unfold lookupKey
      rw [List.find?_cons_of_neg _ (by simp [hhead, hk]),
        List.find?_cons_of_neg _ (by simp [hk])]
      unfold lookupKey at ih
      exact ih

theorem lookupKey_append_right (m : List (String × Props)) (kv : String × Props) (s : String)
    (h : kv.1 ≠ s) : lookupKey (m ++ [kv]) s = lookupKey m s := by
  unfold lookupKey
  rw [List.find?_append]
  have : List.find? (fun kv => kv.1 = s) [kv] = none := by
    rw [List.find?_cons_of_neg _ (by simp [h])]
    rfl
  rw [this]
  cases List.find? (fun kv => decide (kv.1 = s)) m <;> simp

theorem lookupKey_insertMerge (m : List (String × Props)) (e : PEntry) (s : String) :
    lookupKey (insertMerge m e) s =
      if e.src = s then mergeStep (lookupKey m s) e else lookupKey m s := by
  unfold insertMerge
  by_cases hmem : e.src ∈ mapKeys m
  · rw [if_pos ((any_key_iff m e.src).2 hmem), lookupKey_mapUpdate]
    by_cases hes : e.src = s
    · rw [if_pos hes, if_pos hes]
      have := (lookupKey_mem_isSome m s).1 (hes ▸ hmem)
      rcases Option.isSome_iff_exists.1 this with ⟨P, hP⟩
      rw [hP]
      rfl
    · rw [if_neg hes, if_neg hes]
  · rw [if_neg (fun h => hmem ((any_key_iff m e.src).1 h))]
    by_cases hes : e.src = s
    · have hnone : lookupKey m s = none := by
        by_contra h
        have : (lookupKey m s).isSome := Option.isSome_iff_ne_none.2 h
        exact hmem (hes ▸ (lookupKey_mem_isSome m s).2 this)
      rw [if_pos hes, hnone]
      have hfind : List.find? (fun kv => decide (kv.1 = s)) m = none := by
        cases h : List.find? (fun kv => decide (kv.1 = s)) m with
        | none => rfl
        | some kv =>
          unfold lookupKey at hnone
          rw [h] at hnone
          simp at hnone
      unfold lookupKey
      rw [List.find?_append, hfind,
        List.find?_cons_of_pos _ (by simp only [decide_eq_true_eq]; exact hes)]
      simp [mergeStep]
    · rw [if_neg hes]
      exact lookupKey_append_right m _ s (by simpa using hes)

theorem lookupKey_foldl_insertMerge (es : List PEntry) (m : List (String × Props)) (s : String) :
    lookupKey (es.foldl insertMerge m) s =
      (es.filter fun e => e.src = s).foldl mergeStep (lookupKey m s) := by
  induction es generalizing m with
  | nil => simp
  | cons e rest ih =>
    rw [List.foldl_cons, ih]
    by_cases hes : e.src = s
    · rw [List.filter_cons_of_pos (by simp [hes]), List.foldl_cons, lookupKey_insertMerge,
        if_pos hes]
    · rw [List.filter_cons_of_neg (by simp [hes]), lookupKey_insertMerge, if_neg hes]

theorem foldl_mergeStep_some (fs : List PEntry) (P0 : Props) :
    fs.foldl mergeStep (some P0) = some (mergeAll P0 fs) := by
  induction fs generalizing P0 with
  | nil => rfl
  | cons e rest ih => exact ih (mergeProps P0 e.props)

theorem mergeAll_field (fs : List PEntry) (P0 : Props) (f : PField) :
    mergeAll P0 fs f =
      fs.foldl (fun a e => match e.props f with | some v => some v | none => a) (P0 f) := by
  induction fs generalizing P0 with
  | nil => rfl
  | cons e rest ih =>
    show mergeAll (mergeProps P0 e.props) rest f = _
    rw [ih]
    rw [List.foldl_cons]
    have : mergeProps P0 e.props f =
        (match e.props f with | some v => some v | none => P0 f) := rfl
    rw [this]

theorem foldl_mergeStep_none (fs : List PEntry) (hne : fs ≠ []) :
    ∃ P, fs.foldl mergeStep none = some P ∧ ∀ f, P f = lastDef f fs := by
  cases fs with
  | nil => exact absurd rfl hne
  | cons e rest =>
    rw [List.foldl_cons]
    show ∃ P, rest.foldl mergeStep (some e.props) = some P ∧ _
    rw [foldl_mergeStep_some]
    refine ⟨mergeAll e.props rest, rfl, ?_⟩
    intro f
    rw [mergeAll_field]
    unfold lastDef
    rw [List.foldl_cons]
    have : (match e.props f with | some v => some v | none => (none : Option String))
        = e.props f := by
      cases e.props f <;> rfl
    rw [this]

theorem foldl_lastStep_some (f : PField) (rest : List PEntry) (v : String) :
    ∃ w, rest.foldl (fun a e => match e.props f with | some u => some u | none => a)
      (some v) = some w := by
  induction rest generalizing v with
  | nil => exact ⟨v, rfl⟩
  | cons e tail ih =>
    rw [List.foldl_cons]
    cases he : e.props f with
    | some u => simpa [he] using ih u
    | none => simpa [he] using ih v

theorem lastDef_append (f : PField) (a b : List PEntry) :
    lastDef f (a ++ b) =
      match lastDef f b with | some v => some v | none => lastDef f a := by
  unfold lastDef
  rw [List.foldl_append]
  generalize List.foldl _ none a = x
  induction b generalizing x with
  | nil => cases x <;> rfl
  | cons e rest ih =>
    rw [List.foldl_cons, List.foldl_cons]
    cases he : e.props f with
    | some v =>
      simp only [he]
      obtain ⟨w, hw⟩ := foldl_lastStep_some f rest v
      rw [hw]
    | none =>
      simp only [he]
      exact ih x

/-- C5: page-set resolution fails with the duplicate-source error, naming all
offending paths, exactly when two explicit `src` entries (after splitting
multi-path lists) name the same path; otherwise it succeeds with exactly one
addressable page per distinct resolved path. -/
theorem c5_duplicate_sources (walk : ConfigPage → List String) (pages : List ConfigPage) :
    (¬ ((pagesFromSrc pages).map PEntry.src).Nodup →
      collectAddressablePages walk pages =
        .error ("Duplicate page entries found in site config: " ++ String.intercalate ", "
          (jsUniq (jsDupsAux [] ((pagesFromSrc pages).map PEntry.src))))
      ∧ ∀ s, s ∈ jsUniq (jsDupsAux [] ((pagesFromSrc pages).map PEntry.src)) ↔
          2 ≤ ((pagesFromSrc pages).map PEntry.src).count s)
    ∧ (((pagesFromSrc pages).map PEntry.src).Nodup →
      ∃ m, collectAddressablePages walk pages = .ok m
        ∧ (mapKeys m).Nodup
        ∧ ∀ s, s ∈ mapKeys m ↔
            s ∈ ((pagesFromGlobs walk pages ++ pagesFromSrc pages).map PEntry.src)) := by
  constructor
  · intro hnd
    have hne : jsDupsAux [] ((pagesFromSrc pages).map PEntry.src) ≠ [] := by
      intro h
      exact hnd ((jsDupsAux_nil_iff [] _).1 h).2
    refine ⟨?_, ?_⟩
    · unfold collectAddressablePages
      rw [if_pos hne]
    · intro s
      rw [jsUniq, mem_jsUniqAux, mem_jsDupsAux]
      simp only [List.not_mem_nil, false_or, not_false_iff, and_true]
      constructor
      · rintro ⟨_, h2⟩
        exact h2
      · intro h2
        refine ⟨List.count_pos_iff.1 (by omega), h2⟩
  · intro hnd
    have heq : jsDupsAux [] ((pagesFromSrc pages).map PEntry.src) = [] :=
      (jsDupsAux_nil_iff [] _).2 ⟨by simp, hnd⟩
    refine ⟨(pagesFromGlobs walk pages ++ pagesFromSrc pages).foldl insertMerge [], ?_, ?_, ?_⟩
    · unfold collectAddressablePages
      rw [if_neg (by simp [heq])]
    · rw [mapKeys_foldl_insertMerge]
      have : mapKeys ([] : List (String × Props)) = [] := rfl
      rw [this, List.nil_append]
      exact jsUniqAux_nodup [] _
    · intro s
      rw [mapKeys_foldl_insertMerge]
      have : mapKeys ([] : List (String × Props)) = [] := rfl
      rw [this, List.nil_append, mem_jsUniqAux]
      simp

theorem c5_duplicate_sources_witness :
    (∃ m, collectAddressablePages (fun _ => [])
        [⟨.one "a.md", none, fun _ => none⟩, ⟨.one "b.md", none, fun _ => none⟩] = .ok m
      ∧ (mapKeys m).Nodup
      ∧ ∀ s, s ∈ mapKeys m ↔
          s ∈ ((pagesFromGlobs (fun _ => [])
              [⟨.one "a.md", none, fun _ => none⟩, ⟨.one "b.md", none, fun _ => none⟩]
            ++ pagesFromSrc
              [⟨.one "a.md", none, fun _ => none⟩,
               ⟨.one "b.md", none, fun _ => none⟩]).map PEntry.src))
    ∧ (collectAddressablePages (fun _ => [])
        [⟨.one "a.md", none, fun _ => none⟩, ⟨.one "a.md", none, fun _ => none⟩] =
          .error ("Duplicate page entries found in site config: " ++ String.intercalate ", "
            (jsUniq (jsDupsAux [] ((pagesFromSrc
              [⟨.one "a.md", none, fun _ => none⟩,
               ⟨.one "a.md", none, fun _ => none⟩]).map PEntry.src))))
      ∧ ∀ s, s ∈ jsUniq (jsDupsAux [] ((pagesFromSrc
            [⟨.one "a.md", none, fun _ => none⟩,
             ⟨.one "a.md", none, fun _ => none⟩]).map PEntry.src)) ↔
          2 ≤ ((pagesFromSrc
            [⟨.one "a.md", none, fun _ => none⟩,
             ⟨.one "a.md", none, fun _ => none⟩]).map PEntry.src).count s) := by
  refine ⟨(c5_duplicate_sources (fun _ => []) _).2 ?_, (c5_duplicate_sources (fun _ => []) _).1 ?_⟩
  · show (["a.md", "b.md"] : List String).Nodup
    decide
  · show ¬ (["a.md", "a.md"] : List String).Nodup
    decide

/-- C6: for a key present in the merged page map, the stored value of every
property is the last non-absent value among the entries for that key in
processing order (glob-derived entries first, then explicit entries); in
particular a non-absent property of an explicit entry always beats the
glob-derived value, regardless of declaration order. -/
theorem c6_merge_priorities (walk : ConfigPage → List String) (pages : List ConfigPage)
    (m : List (String × Props)) (s : String) (P : Props)
    (hok : collectAddressablePages walk pages = .ok m)
    (hlk : lookupKey m s = some P) :
    (∀ f, P f = lastDef f (entriesFor walk pages s)) ∧
    (∀ f v, lastDef f ((pagesFromSrc pages).filter fun e => e.src = s) = some v →
      P f = some v) := by
  unfold collectAddressablePages at hok
  by_cases hdup : jsDupsAux [] ((pagesFromSrc pages).map PEntry.src) ≠ []
  · rw [if_pos hdup] at hok
    exact absurd hok (by simp)
  · rw [if_neg hdup] at hok
    have hm : m = (pagesFromGlobs walk pages ++ pagesFromSrc pages).foldl insertMerge [] :=
      (Except.ok.inj hok).symm
    subst hm
    rw [lookupKey_foldl_insertMerge] at hlk
    have hlk2 : ((pagesFromGlobs walk pages ++ pagesFromSrc pages).filter
        fun e => e.src = s).foldl mergeStep none = some P := hlk
    have hfields : ∀ f, P f = lastDef f (entriesFor walk pages s) := by
      cases hfs : (pagesFromGlobs walk pages ++ pagesFromSrc pages).filter
          fun e => e.src = s with
      | nil =>
        rw [hfs] at hlk2
        exact absurd hlk2 (by simp)
      | cons e rest =>
        obtain ⟨P2, h1, h2⟩ := foldl_mergeStep_none (e :: rest) (by simp)
        rw [hfs] at hlk2
        rw [h1] at hlk2
        have : P = P2 := (Option.some.inj hlk2).symm
        subst this
        intro f
        rw [h2 f]
        unfold entriesFor
        rw [hfs]
    refine ⟨hfields, ?_⟩
    intro f v hv
    rw [hfields f]
    unfold entriesFor
    rw [List.filter_append, lastDef_append, hv]

theorem c6_merge_priorities_witness :
    mergeProps (globEntryProps ⟨.noSrc, some "g", fun f => match f with
        | .searchable => some "no" | _ => none⟩)
      (fun f => match f with | .title => some "T" | _ => none) PField.title =
    lastDef PField.title (entriesFor (fun _ => ["a"])
      [⟨.one "a", none, fun f => match f with | .title => some "T" | _ => none⟩,
       ⟨.noSrc, some "g", fun f => match f with | .searchable => some "no" | _ => none⟩] "a") :=
  (c6_merge_priorities (fun _ => ["a"])
    [⟨.one "a", none, fun f => match f with | .title => some "T" | _ => none⟩,
     ⟨.noSrc, some "g", fun f => match f with | .searchable => some "no" | _ => none⟩]
    _ "a" _ rfl rfl).1 PField.title

/-- C8 (amended): the persisted index has the documented shape, with
`enableSearch` copied from the site config, and its `pages` list holds exactly
the pages flagged searchable whose headings record is present. -/
theorem c8_site_index_amended (enableSearch : Bool) (pages : List SitePage) :
    (writeSiteData enableSearch pages).enableSearch = enableSearch ∧
    ∀ e, e ∈ (writeSiteData enableSearch pages).pages ↔
      ∃ p ∈ pages, p.searchable = true ∧ p.headings.isSome = true ∧
        e = { src := p.src, title := p.title, headings := p.headings.getD ""
              headingKeywords := p.keywords } := by
  refine ⟨rfl, ?_⟩
  intro e
  unfold writeSiteData
  simp only [List.mem_map, List.mem_filter, Bool.and_eq_true]
  constructor
  · rintro ⟨p, ⟨hp, hs, hh⟩, he⟩
    exact ⟨p, hp, hs, hh, he.symm⟩
  · rintro ⟨p, hp, hs, hh, he⟩
    exact ⟨p, ⟨hp, hs, hh⟩, he.symm⟩

/-- C8 counterexample: a page flagged searchable whose headings were never
produced (`page.headings` undefined) is dropped from the persisted index, so
the index does not contain exactly the searchable-flagged pages. -/
theorem c8_counterexample :
    (writeSiteData true [⟨"a.md", true, none, "A", "kw"⟩]).pages = [] ∧
    ([⟨"a.md", true, none, "A", "kw"⟩] : List SitePage).filter
      (fun p => p.searchable) = [⟨"a.md", true, none, "A", "kw"⟩] := by
  exact ⟨rfl, rfl⟩

/-- C10: `changeCurrentPage` updates the current-page-viewed state to the
resolved path unconditionally, leaves the pending set unchanged, and returns
`true` and dispatches a rebuild of exactly that path iff the path is in the
pending set. -/
theorem c10_change_current_page (site : LazySite) (url : String) :
    (changeCurrentPage site url).1.currentPageViewed = joinPath site.rootPath url ∧
    (changeCurrentPage site url).1.toRebuild = site.toRebuild ∧
    ((changeCurrentPage site url).2.1 = true ↔ joinPath site.rootPath url ∈ site.toRebuild) ∧
    (changeCurrentPage site url).2.2 =
      (if joinPath site.rootPath url ∈ site.toRebuild
        then some (joinPath site.rootPath url) else none) := by
  unfold changeCurrentPage
  by_cases h : joinPath site.rootPath url ∈ site.toRebuild
  · rw [if_pos ((contains_iff_mem _ _).2 h)]
    simp [h]
  · rw [if_neg (by simp [contains_iff_mem, h])]
    simp [h]

theorem regenInv_slot (site : RegenSite) (filePaths : List String) (sra : Bool)
    (acc : RegenAcc) (hinv : RegenInv site filePaths sra acc) (i : Nat)
    (h : i < acc.opened.length) (p : DepPage) (hp : acc.opened[i] = some p) :
    p ∈ site.pages ∧ (sra || filePaths.any p.isDep) = true ∧
      site.currentOpenedPages.get? i = some p.key :=
  hinv.2 i h p (by simpa [List.get_eq_getElem] using hp)

theorem mem_setAdd_self (l : List String) (k : String) : k ∈ setAdd l k := by
  unfold setAdd
  by_cases h : k ∈ l
  · rw [if_pos ((contains_iff_mem _ _).2 h)]
    exact h
  · rw [if_neg (by simp [contains_iff_mem, h])]
    simp

theorem mem_setAdd_of_mem (l : List String) (k k2 : String) (h : k ∈ l) : k ∈ setAdd l k2 := by
  unfold setAdd
  by_cases h2 : k2 ∈ l
  · rw [if_pos ((contains_iff_mem _ _).2 h2)]
    exact h
  · rw [if_neg (by simp [contains_iff_mem, h2])]
    exact List.mem_append_left _ h

theorem mem_setAdd_elim (l : List String) (k k2 : String) (h : k ∈ setAdd l k2) :
    k ∈ l ∨ k = k2 := by
  unfold setAdd at h
  by_cases h2 : k2 ∈ l
  · rw [if_pos ((contains_iff_mem _ _).2 h2)] at h
    exact Or.inl h
  · rw [if_neg (by simp [contains_iff_mem, h2])] at h
    rcases List.mem_append.1 h with h3 | h3
    · exact Or.inl h3
    · exact Or.inr (List.mem_singleton.1 h3)

theorem findIdx?_spec {α : Type} (pred : α → Bool) (l : List α) (i : Nat)
    (h : l.findIdx? pred = some i) :
    i < l.length ∧ ∃ v, l.get? i = some v ∧ pred v = true := by
  induction l generalizing i with
  | nil => simp [List.findIdx?] at h
  | cons x xs ih =>
    rw [List.findIdx?_cons] at h
    by_cases hx : pred x
    · rw [if_pos hx] at h
      have : i = 0 := (Option.some.inj h).symm
      subst this
      exact ⟨by simp, x, rfl, hx⟩
    · rw [if_neg hx, List.findIdx?_succ] at h
      rcases Option.map_eq_some'.1 h with ⟨j, hj, hji⟩
      obtain ⟨h1, v, h2, h3⟩ := ih j hj
      subst hji
      refine ⟨by simpa using h1, v, ?_, h3⟩
      simpa using h2

theorem regen_fold_spec (site : RegenSite) (fps : List String) (sra : Bool)
    (hinj : ∀ a ∈ site.pages, ∀ b ∈ site.pages, a.key = b.key → a = b) :
    ∀ (rem : List DepPage) (acc : RegenAcc),
      (∀ p ∈ rem, p ∈ site.pages) → RegenInv site fps sra acc →
      RegenInv site fps sra (rem.foldl (regenStep site fps sra) acc) ∧
      (∀ p ∈ rem, (sra || fps.any p.isDep) = true →
        inBucket p (rem.foldl (regenStep site fps sra) acc)) ∧
      (∀ p, inBucket p acc → inBucket p (rem.foldl (regenStep site fps sra) acc)) ∧
      (∀ k, k ∈ (rem.foldl (regenStep site fps sra) acc).toRebuild →
        k ∈ acc.toRebuild ∨ ∃ q ∈ rem, (sra || fps.any q.isDep) = true ∧ q.key = k) ∧
      (∀ p, p ∈ (rem.foldl (regenStep site fps sra) acc).asyncPages →
        p ∈ acc.asyncPages ∨ (p ∈ rem ∧ (sra || fps.any p.isDep) = true)) := by
  intro rem
  induction rem with
  | nil =>
    intro acc _ hinv
    refine ⟨hinv, by simp, fun p h => h, fun k hk => Or.inl hk, fun p hp => Or.inl hp⟩
  | cons q rest ih =>
    intro acc hrem hinv
    simp only [List.foldl_cons]
    have hq : q ∈ site.pages := hrem q (List.mem_cons_self _ _)
    have hrest : ∀ p ∈ rest, p ∈ site.pages :=
      fun p hp => hrem p (List.mem_cons_of_mem _ hp)
    by_cases haff : (sra || fps.any q.isDep) = true
    · by_cases hone : site.onePagePath = true
      · cases hfind : site.currentOpenedPages.findIdx? (fun pagePath => pagePath = q.key) with
        | none =>
          have hstep : regenStep site fps sra acc q =
              { acc with toRebuild := setAdd acc.toRebuild q.key } := by
            unfold regenStep
            rw [if_pos haff, if_pos hone, hfind]
          rw [hstep]
          obtain ⟨i1, i2, i3, i4, i5⟩ := ih { acc with toRebuild := setAdd acc.toRebuild q.key }
            hrest ⟨hinv.1, hinv.2⟩
          refine ⟨i1, ?_, ?_, ?_, ?_⟩
          · intro p hp hpaff
            rcases List.mem_cons.1 hp with h | h
            · subst h
              exact i3 p (Or.inr (Or.inl (mem_setAdd_self _ _)))
            · exact i2 p h hpaff
          · intro p hp
            refine i3 p ?_
            rcases hp with h | h | h
            · exact Or.inl h
            · exact Or.inr (Or.inl (mem_setAdd_of_mem _ _ _ h))
            · exact Or.inr (Or.inr h)
          · intro k hk
            rcases i4 k hk with h | ⟨q2, hq2, hq2aff, hq2k⟩
            · rcases mem_setAdd_elim _ _ _ h with h2 | h2
              · exact Or.inl h2
              · exact Or.inr ⟨q, List.mem_cons_self _ _, haff, h2.symm⟩
            · exact Or.inr ⟨q2, List.mem_cons_of_mem _ hq2, hq2aff, hq2k⟩
          · intro p hp
            rcases i5 p hp with h | ⟨h1, h2⟩
            · exact Or.inl h
            · exact Or.inr ⟨List.mem_cons_of_mem _ h1, h2⟩
        | some idx =>
          obtain ⟨hidxlen, v, hv, hvk⟩ := findIdx?_spec _ _ _ hfind
          have hvk2 : v = q.key := by simpa using hvk
          subst hvk2
          have hlen : idx < acc.opened.length := by
            rw [hinv.1]
            exact hidxlen
          have hstep : regenStep site fps sra acc q =
              { acc with opened := acc.opened.set idx (some q) } := by
            unfold regenStep
            rw [if_pos haff, if_pos hone, hfind]
          rw [hstep]
          have hinv2 : RegenInv site fps sra { acc with opened := acc.opened.set idx (some q) } := by
            constructor
            · simpa using hinv.1
            · intro i h p hpi
              have hilen : i < acc.opened.length := by simpa using h
              by_cases hij : i = idx
              · subst hij
                have : (acc.opened.set i (some q)).get ⟨i, h⟩ = some q := by
                  simp [List.get_eq_getElem, List.getElem_set_self]
                rw [this] at hpi
                have hpq : p = q := (Option.some.inj hpi).symm
                subst hpq
                exact ⟨hq, haff, hv⟩
              · have : (acc.opened.set idx (some q)).get ⟨i, h⟩ = acc.opened[i] := by
                  simp [List.get_eq_getElem, List.getElem_set_ne (fun h2 => hij h2.symm)]
                rw [this] at hpi
                exact hinv.2 i hilen p (by simpa [List.get_eq_getElem] using hpi)
          obtain ⟨i1, i2, i3, i4, i5⟩ := ih { acc with opened := acc.opened.set idx (some q) }
            hrest hinv2
          refine ⟨i1, ?_, ?_, ?_, ?_⟩
          · intro p hp hpaff
            rcases List.mem_cons.1 hp with h | h
            · subst h
              exact i3 p (Or.inl (List.mem_set acc.opened idx hlen (some p)))
            · exact i2 p h hpaff
          · intro p hp
            refine i3 p ?_
            rcases hp with h | h | h
            · left
              rcases List.mem_iff_getElem.1 h with ⟨j, hj, hpj⟩
              by_cases hij : j = idx
              · subst hij
                obtain ⟨hpmem, _, hpkey⟩ := regenInv_slot site fps sra acc hinv j hj p hpj
                have : p.key = q.key := by
                  rw [hpkey] at hv
                  exact Option.some.inj hv
                have hpq : p = q := hinj p hpmem q hq this
                subst hpq
                exact List.mem_set acc.opened j hlen (some p)
              · refine List.mem_iff_getElem.2 ⟨j, by simpa using hj, ?_⟩
                rw [List.getElem_set_ne (fun h2 => hij h2.symm)]
                exact hpj
            · exact Or.inr (Or.inl h)
            · exact Or.inr (Or.inr h)
          · intro k hk
            rcases i4 k hk with h | ⟨q2, hq2, hq2aff, hq2k⟩
            · exact Or.inl h
            · exact Or.inr ⟨q2, List.mem_cons_of_mem _ hq2, hq2aff, hq2k⟩
          · intro p hp
            rcases i5 p hp with h | ⟨h1, h2⟩
            · exact Or.inl h
            · exact Or.inr ⟨List.mem_cons_of_mem _ h1, h2⟩
      · have hstep : regenStep site fps sra acc q =
            { acc with asyncPages := acc.asyncPages ++ [q] } := by
          unfold regenStep
          rw [if_pos haff, if_neg hone]
        rw [hstep]
        obtain ⟨i1, i2, i3, i4, i5⟩ := ih { acc with asyncPages := acc.asyncPages ++ [q] }
          hrest ⟨hinv.1, hinv.2⟩
        refine ⟨i1, ?_, ?_, ?_, ?_⟩
        · intro p hp hpaff
          rcases List.mem_cons.1 hp with h | h
          · subst h
            exact i3 p (Or.inr (Or.inr (List.mem_append_right _ (List.mem_singleton.2 rfl))))
          · exact i2 p h hpaff
        · intro p hp
          refine i3 p ?_
          rcases hp with h | h | h
          · exact Or.inl h
          · exact Or.inr (Or.inl h)
          · exact Or.inr (Or.inr (List.mem_append_left _ h))
        · intro k hk
          rcases i4 k hk with h | ⟨q2, hq2, hq2aff, hq2k⟩
          · exact Or.inl h
          · exact Or.inr ⟨q2, List.mem_cons_of_mem _ hq2, hq2aff, hq2k⟩
        · intro p hp
          rcases i5 p hp with h | ⟨h1, h2⟩
          · rcases List.mem_append.1 h with h2 | h2
            · exact Or.inl h2
            · have : p = q := List.mem_singleton.1 h2
              subst this
              exact Or.inr ⟨List.mem_cons_self _ _, haff⟩
          · exact Or.inr ⟨List.mem_cons_of_mem _ h1, h2⟩
    · have hstep : regenStep site fps sra acc q = acc := by
        unfold regenStep
        rw [if_neg haff]
      rw [hstep]
      obtain ⟨i1, i2, i3, i4, i5⟩ := ih acc hrest hinv
      refine ⟨i1, ?_, i3, ?_, ?_⟩
      · intro p hp hpaff
        rcases List.mem_cons.1 hp with h | h
        · subst h
          exact absurd hpaff haff
        · exact i2 p h hpaff
      · intro k hk
        rcases i4 k hk with h | ⟨q2, hq2, hq2aff, hq2k⟩
        · exact Or.inl h
        · exact Or.inr ⟨q2, List.mem_cons_of_mem _ hq2, hq2aff, hq2k⟩
      · intro p hp
        rcases i5 p hp with h | ⟨h1, h2⟩
        · exact Or.inl h
        · exact Or.inr ⟨List.mem_cons_of_mem _ h1, h2⟩

/-- C7 (amended): in a change-driven rebuild, when the user-defined variables
file is among the changed paths or force-reload is set, every known page is
treated as affected (stored for an immediate rebuild, kept for the concurrent
task, or added to the pending set) regardless of its dependency predicate;
otherwise exactly the dependency-matched pages are affected.  Requires the
pages to have pairwise-distinct normalized keys. -/
theorem c7_affected_pages_amended (site : RegenSite) (fps : List String)
    (hnd : (site.pages.map DepPage.key).Nodup) :
    (∀ p ∈ site.pages,
      ((collectUserDefinedVariablesMapIfNeeded site fps || site.forceReload)
        || fps.any p.isDep) = true →
      p ∈ (regenerateAffectedPages site fps).1
      ∨ p.key ∈ (regenerateAffectedPages site fps).2.1
      ∨ p ∈ (regenerateAffectedPages site fps).2.2) ∧
    (∀ p ∈ site.pages,
      ((collectUserDefinedVariablesMapIfNeeded site fps || site.forceReload)
        || fps.any p.isDep) = false →
      p ∉ (regenerateAffectedPages site fps).1
      ∧ p ∉ (regenerateAffectedPages site fps).2.2
      ∧ ((regenerateAffectedPages site fps).2.1 = site.toRebuild
          ∨ ∀ k ∈ (regenerateAffectedPages site fps).2.1,
              k ∈ site.toRebuild ∨ ∃ q ∈ site.pages,
                ((collectUserDefinedVariablesMapIfNeeded site fps || site.forceReload)
                  || fps.any q.isDep) = true ∧ q.key = k)) := by
  have hinj : ∀ a ∈ site.pages, ∀ b ∈ site.pages, a.key = b.key → a = b :=
    fun a ha b hb hab => List.inj_on_of_nodup_map hnd ha hb hab
  have hinv0 : RegenInv site fps
      (collectUserDefinedVariablesMapIfNeeded site fps || site.forceReload)
      ⟨List.replicate site.currentOpenedPages.length none, site.toRebuild, []⟩ := by
    constructor
    · simp
    · intro i h p hp
      rw [List.get_eq_getElem, List.getElem_replicate] at hp
      exact absurd hp (by simp)
  obtain ⟨f1, f2, f3, f4, f5⟩ := regen_fold_spec site fps
    (collectUserDefinedVariablesMapIfNeeded site fps || site.forceReload) hinj
    site.pages ⟨List.replicate site.currentOpenedPages.length none, site.toRebuild, []⟩
    (fun p hp => hp) hinv0
  constructor
  · intro p hp haff
    rcases f2 p hp haff with h | h | h
    · refine Or.inl ?_
      unfold regenerateAffectedPages
      exact List.mem_filterMap.2 ⟨some p, h, rfl⟩
    · exact Or.inr (Or.inl h)
    · exact Or.inr (Or.inr h)
  · intro p hp haff
    refine ⟨?_, ?_, Or.inr ?_⟩
    · intro hmem
      unfold regenerateAffectedPages at hmem
      rcases List.mem_filterMap.1 hmem with ⟨o, ho, hop⟩
      have : o = some p := by
        cases o with
        | none => exact absurd hop (by simp)
        | some x => exact congrArg some (Option.some.inj hop)
      subst this
      rcases List.mem_iff_getElem.1 ho with ⟨j, hj, hpj⟩
      obtain ⟨_, haff2, _⟩ := regenInv_slot site fps _ _ f1 j hj p hpj
      rw [haff] at haff2
      exact absurd haff2 (by simp)
    · intro hmem
      unfold regenerateAffectedPages at hmem
      rcases f5 p hmem with h | ⟨_, h2⟩
      · exact absurd h (by simp)
      · rw [haff] at h2
        exact absurd h2 (by simp)
    · intro k hk
      unfold regenerateAffectedPages at hk
      exact f4 k hk

/-- C7 counterexample: with force-reload set (so every page must be treated
as affected), two known pages that share the normalized key `"a"` while that
key is open collapse into one rebuild slot: the later page overwrites the
earlier one, and the earlier page is neither rebuilt nor added to the pending
set.  The surviving single entry is the second page (its dependency predicate
is constantly `true`), and both the pending set and the concurrent batch stay
empty. -/
theorem c7_counterexample :
    ((regenerateAffectedPages
        ⟨[⟨"a", fun _ => false⟩, ⟨"a", fun _ => true⟩], true, ["a"], [], true, "vars"⟩
        ["x"]).1.map (fun p => p.isDep "x") = [true])
    ∧ (regenerateAffectedPages
        ⟨[⟨"a", fun _ => false⟩, ⟨"a", fun _ => true⟩], true, ["a"], [], true, "vars"⟩
        ["x"]).2.1 = []
    ∧ (regenerateAffectedPages
        ⟨[⟨"a", fun _ => false⟩, ⟨"a", fun _ => true⟩], true, ["a"], [], true, "vars"⟩
        ["x"]).2.2 = [] :=
  ⟨rfl, rfl, rfl⟩

theorem c7_affected_pages_amended_witness :
    (⟨"a", fun _ => false⟩ : DepPage) ∈ (regenerateAffectedPages
          ⟨[⟨"a", fun _ => false⟩, ⟨"b", fun _ => false⟩], true, ["a"], [], true, "vars"⟩
          ["x"]).1
      ∨ (⟨"a", fun _ => false⟩ : DepPage).key ∈ (regenerateAffectedPages
          ⟨[⟨"a", fun _ => false⟩, ⟨"b", fun _ => false⟩], true, ["a"], [], true, "vars"⟩
          ["x"]).2.1
      ∨ (⟨"a", fun _ => false⟩ : DepPage) ∈ (regenerateAffectedPages
          ⟨[⟨"a", fun _ => false⟩, ⟨"b", fun _ => false⟩], true, ["a"], [], true, "vars"⟩
          ["x"]).2.2 :=
  (c7_affected_pages_amended
    ⟨[⟨"a", fun _ => false⟩, ⟨"b", fun _ => false⟩], true, ["a"], [], true, "vars"⟩
    ["x"] (by decide)).1 ⟨"a", fun _ => false⟩ (List.mem_cons_self _ _) rfl

theorem asyncStep_now (bg : Bool) (thr : Nat → Nat) (startTime : Nat) (s : AsyncState)
    (choice : Nat) : (asyncStep bg thr startTime s choice).g.now = s.g.now + 1 := by
  simp only [asyncStep, settleWith]
  repeat' split
  all_goals rfl

theorem settleWith_isSome (s : AsyncState) (r : Except String Bool) :
    (settleWith s r).settle.isSome = true := by
  unfold settleWith
  split
  · assumption
  · rfl

theorem asyncStep_stopped_eq (bg : Bool) (thr : Nat → Nat) (startTime : Nat) (sb : Bool)
    (s : AsyncState) (choice : Nat)
    (ha : s.g.stopped = (sb || !s.isCompleted)) :
    (asyncStep bg thr startTime s choice).g.stopped =
      (sb || !(asyncStep bg thr startTime s choice).isCompleted) := by
  simp only [asyncStep, settleWith]
  repeat' split
  all_goals simp_all

theorem asyncStep_isCompleted_settled (bg : Bool) (thr : Nat → Nat) (startTime : Nat)
    (s : AsyncState) (choice : Nat)
    (hb : s.isCompleted = false → s.settle.isSome) :
    (asyncStep bg thr startTime s choice).isCompleted = false →
      (asyncStep bg thr startTime s choice).settle.isSome := by
  simp only [asyncStep, settleWith]
  repeat' split
  all_goals intro h
  all_goals simp_all

theorem asyncStep_resolve_false (bg : Bool) (thr : Nat → Nat) (startTime : Nat)
    (s : AsyncState) (choice : Nat)
    (hc : s.settle = some (.ok false) → s.isCompleted = false) :
    (asyncStep bg thr startTime s choice).settle = some (.ok false) →
      (asyncStep bg thr startTime s choice).isCompleted = false := by
  simp only [asyncStep, settleWith]
  repeat' split
  all_goals intro h
  all_goals simp_all

theorem asyncStep_settle_of_isSome (bg : Bool) (thr : Nat → Nat) (startTime : Nat)
    (s : AsyncState) (choice : Nat) (h : s.settle.isSome = true) :
    (asyncStep bg thr startTime s choice).settle = s.settle := by
  simp only [asyncStep, settleWith]
  repeat' split
  all_goals simp_all

theorem asyncStep_counting (bg : Bool) (thr : Nat → Nat) (startTime : Nat)
    (s : AsyncState) (choice : Nat) (hne : s.inflight ≠ [])
    (hb : s.isCompleted = false → s.settle.isSome)
    (he : s.settle = none →
      s.numPagesGenerated + s.inflight.length + s.queue.length = s.numPagesToGenerate) :
    (asyncStep bg thr startTime s choice).settle = none →
      (asyncStep bg thr startTime s choice).numPagesGenerated
        + (asyncStep bg thr startTime s choice).inflight.length
        + (asyncStep bg thr startTime s choice).queue.length
        = (asyncStep bg thr startTime s choice).numPagesToGenerate := by
  have hlen : 0 < s.inflight.length := List.length_pos.2 hne
  have hi : choice % s.inflight.length < s.inflight.length := Nat.mod_lt _ hlen
  have herase : (s.inflight.eraseIdx (choice % s.inflight.length)).length
      = s.inflight.length - 1 := List.length_eraseIdx_of_lt hi
  simp only [asyncStep, settleWith]
  repeat' split
  all_goals intro h
  all_goals simp_all
  all_goals try omega
  -- remaining goals are pop branches: the queue is nonempty there
  all_goals rename_i hlast
  all_goals obtain ⟨ys, hys⟩ := List.getLast?_eq_some_iff.1 hlast
  all_goals have hqlen : 1 ≤ s.queue.length := by rw [hys]; simp
  all_goals omega

theorem asyncStep_resolve_true (bg : Bool) (thr : Nat → Nat) (startTime : Nat)
    (s : AsyncState) (choice : Nat) (hne : s.inflight ≠ [])
    (hb : s.isCompleted = false → s.settle.isSome)
    (hd : s.settle = some (.ok true) → s.isCompleted = true ∧ s.inflight = [])
    (he : s.settle = none →
      s.numPagesGenerated + s.inflight.length + s.queue.length = s.numPagesToGenerate) :
    (asyncStep bg thr startTime s choice).settle = some (.ok true) →
      (asyncStep bg thr startTime s choice).isCompleted = true ∧
      (asyncStep bg thr startTime s choice).inflight = [] := by
  have hlen : 0 < s.inflight.length := List.length_pos.2 hne
  have hi : choice % s.inflight.length < s.inflight.length := Nat.mod_lt _ hlen
  have herase : (s.inflight.eraseIdx (choice % s.inflight.length)).length
      = s.inflight.length - 1 := List.length_eraseIdx_of_lt hi
  have hnotok : s.settle = some (.ok true) → False := fun h => hne (hd h).2
  simp only [asyncStep, settleWith]
  repeat' split
  all_goals intro h
  all_goals simp_all
  all_goals try omega

theorem asyncStep_liveness (bg : Bool) (thr : Nat → Nat) (startTime : Nat)
    (s : AsyncState) (choice : Nat)
    (hb : s.isCompleted = false → s.settle.isSome) :
    (asyncStep bg thr startTime s choice).settle = none →
      (asyncStep bg thr startTime s choice).queue ≠ [] →
      (asyncStep bg thr startTime s choice).inflight ≠ [] := by
  simp only [asyncStep, settleWith]
  repeat' split
  all_goals intro h hq
  all_goals simp_all

theorem asyncStep_trip_inv (bg : Bool) (thr : Nat → Nat) (startTime : Nat)
    (s : AsyncState) (choice : Nat)
    (h3 : AsyncTripInv bg thr startTime s) :
    AsyncTripInv bg thr startTime (asyncStep bg thr startTime s choice) := by
  unfold AsyncTripInv at h3 ⊢
  simp only [asyncStep, settleWith]
  repeat' split
  all_goals intro h
  all_goals first
    | (rename_i hguard _
       exact ⟨hguard.1, s.g.now + 1, le_refl _, hguard.2⟩)
    | (rename_i hguard _ _
       exact ⟨hguard.1, s.g.now + 1, le_refl _, hguard.2⟩)
    | (obtain ⟨hbg, u, hu, hthr⟩ := h3 (by simp_all)
       exact ⟨hbg, u, by simp_all; omega, hthr⟩)

theorem mem_eraseIdx_or_getElem (l : List SPage) (i : Nat) (h : i < l.length)
    (x : SPage) (hx : x ∈ l) : x ∈ l.eraseIdx i ∨ x = l[i] := by
  rw [List.eraseIdx_eq_take_drop_succ]
  rcases List.mem_iff_getElem.1 hx with ⟨j, hj, hje⟩
  by_cases hij : j = i
  · subst hij
    exact Or.inr (hje ▸ rfl)
  · left
    rw [List.mem_append]
    by_cases hlt : j < i
    · left
      refine List.mem_iff_getElem.2 ⟨j, ?_, ?_⟩
      · rw [List.length_take]
        omega
      · rw [List.getElem_take]
        exact hje
    · right
      refine List.mem_iff_getElem.2 ⟨j - (i + 1), ?_, ?_⟩
      · rw [List.length_drop]
        omega
      · rw [List.getElem_drop]
        have h2 : i + 1 + (j - (i + 1)) = j := by omega
        simp only [h2]
        exact hje

theorem asyncStep_membership (bg : Bool) (thr : Nat → Nat) (startTime : Nat)
    (pages : List SPage) (s : AsyncState) (choice : Nat)
    (hin : ∀ p ∈ s.inflight, p ∈ pages) (hqu : ∀ p ∈ s.queue, p ∈ pages) :
    (∀ p ∈ (asyncStep bg thr startTime s choice).inflight, p ∈ pages) ∧
    (∀ p ∈ (asyncStep bg thr startTime s choice).queue, p ∈ pages) := by
  have hdl : ∀ p ∈ s.queue.dropLast, p ∈ pages :=
    fun p hp => hqu p (List.dropLast_subset _ hp)
  have her : ∀ p ∈ s.inflight.eraseIdx (choice % s.inflight.length), p ∈ pages :=
    fun p hp => hin p (List.mem_of_mem_eraseIdx hp)
  simp only [asyncStep, settleWith]
  repeat' split
  all_goals refine ⟨?_, ?_⟩
  all_goals intro p hp
  all_goals simp_all
  all_goals rcases hp with hp | hp
  all_goals try exact her p hp
  all_goals subst hp
  all_goals exact hqu _ (List.mem_of_getLast?_eq_some (by assumption))

theorem asyncStep_error_prov (bg : Bool) (thr : Nat → Nat) (startTime : Nat)
    (pages : List SPage) (s : AsyncState) (choice : Nat) (hne : s.inflight ≠ [])
    (hin : ∀ p ∈ s.inflight, p ∈ pages)
    (hprov : ∀ e, s.settle = some (.error e) →
      ∃ p ∈ pages, p.genOk = false ∧ e = "Error while generating " ++ p.src) :
    ∀ e, (asyncStep bg thr startTime s choice).settle = some (.error e) →
      ∃ p ∈ pages, p.genOk = false ∧ e = "Error while generating " ++ p.src := by
  have hlen : 0 < s.inflight.length := List.length_pos.2 hne
  have hi : choice % s.inflight.length < s.inflight.length := Nat.mod_lt _ hlen
  have hgd : s.inflight.getD (choice % s.inflight.length) defaultSPage
      = s.inflight[choice % s.inflight.length] := by
    simp [List.getD_eq_getElem?_getD, List.getElem?_eq_getElem hi]
  have hpi : s.inflight[choice % s.inflight.length] ∈ pages :=
    hin _ (List.getElem_mem hi)
  simp only [asyncStep, settleWith]
  repeat' split
  all_goals intro e he
  all_goals simp_all
  exact ⟨_, hin _ (List.getElem_mem hi), by assumption, he.symm⟩

theorem asyncStep_coverage (bg : Bool) (thr : Nat → Nat) (startTime : Nat)
    (pages : List SPage) (s : AsyncState) (choice : Nat) (hne : s.inflight ≠ [])
    (hb : s.isCompleted = false → s.settle.isSome)
    (hcov : s.settle = none → ∀ p ∈ pages, p ∈ s.queue ∨ p ∈ s.inflight ∨ p.genOk = true) :
    (asyncStep bg thr startTime s choice).settle = none →
      ∀ p ∈ pages, p ∈ (asyncStep bg thr startTime s choice).queue
        ∨ p ∈ (asyncStep bg thr startTime s choice).inflight
        ∨ p.genOk = true := by
  have hlen : 0 < s.inflight.length := List.length_pos.2 hne
  have hi : choice % s.inflight.length < s.inflight.length := Nat.mod_lt _ hlen
  simp only [asyncStep, settleWith]
  repeat' split
  all_goals intro h p hp
  all_goals simp_all
  · rename_i hgen hguard heq
    rcases hcov p hp with hc | hc | hc
    · obtain ⟨ys, hys⟩ := List.getLast?_eq_some_iff.1 heq
      have hdl : s.queue.dropLast = ys := by
        rw [hys]
        exact List.dropLast_concat
      rw [hys] at hc
      rcases List.mem_append.1 hc with h2 | h2
      · exact Or.inl (hdl ▸ h2)
      · exact Or.inr (Or.inl (Or.inr (List.mem_singleton.1 h2)))
    · rcases mem_eraseIdx_or_getElem s.inflight _ hi p hc with h2 | h2
      · exact Or.inr (Or.inl (Or.inl h2))
      · exact Or.inr (Or.inr (by rw [h2]; exact hgen))
    · exact Or.inr (Or.inr hc)
  · rename_i hgen hguard heq hnum
    rcases hcov p hp with hc | hc
    · rcases mem_eraseIdx_or_getElem s.inflight _ hi p hc with h2 | h2
      · exact Or.inl h2
      · exact Or.inr (by rw [h2]; exact hgen)
    · exact Or.inr hc

theorem asyncStep_progress_lt (bg : Bool) (thr : Nat → Nat) (startTime : Nat)
    (s : AsyncState) (choice : Nat) (hne : s.inflight ≠ [])
    (he : s.settle = none →
      s.numPagesGenerated + s.inflight.length + s.queue.length = s.numPagesToGenerate)
    (hg : s.settle = none →
      s.numPagesGenerated < s.numPagesToGenerate ∨ s.numPagesToGenerate = 0) :
    (asyncStep bg thr startTime s choice).settle = none →
      (asyncStep bg thr startTime s choice).numPagesGenerated
        < (asyncStep bg thr startTime s choice).numPagesToGenerate
      ∨ (asyncStep bg thr startTime s choice).numPagesToGenerate = 0 := by
  have hlen : 0 < s.inflight.length := List.length_pos.2 hne
  have hi : choice % s.inflight.length < s.inflight.length := Nat.mod_lt _ hlen
  simp only [asyncStep, settleWith]
  repeat' split
  all_goals intro h
  all_goals simp_all
  all_goals try omega
  all_goals rename_i hlast
  all_goals obtain ⟨ys, hys⟩ := List.getLast?_eq_some_iff.1 hlast
  all_goals have hqlen : 1 ≤ s.queue.length := by rw [hys]; simp
  all_goals omega

theorem asyncStep_measure (bg : Bool) (thr : Nat → Nat) (startTime : Nat)
    (s : AsyncState) (choice : Nat) (hne : s.inflight ≠ []) :
    (asyncStep bg thr startTime s choice).queue.length
      + (asyncStep bg thr startTime s choice).inflight.length + 1
      ≤ s.queue.length + s.inflight.length := by
  have hlen : 0 < s.inflight.length := List.length_pos.2 hne
  have hi : choice % s.inflight.length < s.inflight.length := Nat.mod_lt _ hlen
  have herase : (s.inflight.eraseIdx (choice % s.inflight.length)).length
      = s.inflight.length - 1 := List.length_eraseIdx_of_lt hi
  simp only [asyncStep, settleWith]
  repeat' split
  all_goals simp_all
  all_goals try omega
  all_goals rename_i hlast
  all_goals obtain ⟨ys, hys⟩ := List.getLast?_eq_some_iff.1 hlast
  all_goals have hqlen : 1 ≤ s.queue.length := by rw [hys]; simp
  all_goals omega

theorem asyncStep_all (bg : Bool) (thr : Nat → Nat) (startTime : Nat) (sb : Bool)
    (pages : List SPage) (s : AsyncState) (choice : Nat) (hne : s.inflight ≠ [])
    (h : AsyncAll bg thr startTime sb pages s) :
    AsyncAll bg thr startTime sb pages (asyncStep bg thr startTime s choice) := by
  obtain ⟨⟨ha, hb, hc, hd, he, hf⟩, ⟨hm1, hm2, hm3, hm4⟩, ht, hg⟩ := h
  refine ⟨⟨?_, ?_, ?_, ?_, ?_, ?_⟩, ⟨?_, ?_, ?_, ?_⟩, ?_, ?_⟩
  · exact asyncStep_stopped_eq bg thr startTime sb s choice ha
  · exact asyncStep_isCompleted_settled bg thr startTime s choice hb
  · exact asyncStep_resolve_false bg thr startTime s choice hc
  · exact asyncStep_resolve_true bg thr startTime s choice hne hb hd he
  · exact asyncStep_counting bg thr startTime s choice hne hb he
  · exact asyncStep_liveness bg thr startTime s choice hb
  · exact (asyncStep_membership bg thr startTime pages s choice hm1 hm2).1
  · exact (asyncStep_membership bg thr startTime pages s choice hm1 hm2).2
  · exact asyncStep_error_prov bg thr startTime pages s choice hne hm1 hm3
  · exact asyncStep_coverage bg thr startTime pages s choice hne hb hm4
  · exact asyncStep_trip_inv bg thr startTime s choice ht
  · exact asyncStep_progress_lt bg thr startTime s choice hne he hg

theorem asyncLoop_all (bg : Bool) (thr : Nat → Nat) (startTime : Nat) (sb : Bool)
    (pages : List SPage) (fuel : Nat) (sched : List Nat) (s : AsyncState)
    (h : AsyncAll bg thr startTime sb pages s) :
    AsyncAll bg thr startTime sb pages (asyncLoop bg thr startTime fuel sched s) := by
  induction fuel generalizing sched s with
  | zero => exact h
  | succ n ih =>
    rw [asyncLoop]
    by_cases hemp : s.inflight.isEmpty
    · rw [if_pos hemp]
      exact h
    · rw [if_neg hemp]
      exact ih _ _ (asyncStep_all bg thr startTime sb pages s (sched.headD 0)
        (by simpa [List.isEmpty_iff] using hemp) h)

theorem asyncLoop_drains (bg : Bool) (thr : Nat → Nat) (startTime : Nat)
    (fuel : Nat) (sched : List Nat) (s : AsyncState)
    (hf : s.queue.length + s.inflight.length ≤ fuel) :
    (asyncLoop bg thr startTime fuel sched s).inflight = [] := by
  induction fuel generalizing sched s with
  | zero =>
    have : s.inflight.length = 0 := by omega
    rw [asyncLoop]
    exact List.eq_nil_of_length_eq_zero this
  | succ n ih =>
    rw [asyncLoop]
    by_cases hemp : s.inflight.isEmpty
    · rw [if_pos hemp]
      exact List.isEmpty_iff.1 hemp
    · rw [if_neg hemp]
      refine ih _ _ ?_
      have := asyncStep_measure bg thr startTime s (sched.headD 0)
        (by simpa [List.isEmpty_iff] using hemp)
      omega

theorem asyncLoop_settle_keep (bg : Bool) (thr : Nat → Nat) (startTime : Nat)
    (fuel : Nat) (sched : List Nat) (s : AsyncState) (h : s.settle.isSome = true) :
    (asyncLoop bg thr startTime fuel sched s).settle = s.settle := by
  induction fuel generalizing sched s with
  | zero => rfl
  | succ n ih =>
    rw [asyncLoop]
    by_cases hemp : s.inflight.isEmpty
    · rw [if_pos hemp]
    · rw [if_neg hemp]
      rw [ih _ _ (by rw [asyncStep_settle_of_isSome bg thr startTime s (sched.headD 0) h]; exact h)]
      exact asyncStep_settle_of_isSome bg thr startTime s (sched.headD 0) h

theorem asyncLoop_now_mono (bg : Bool) (thr : Nat → Nat) (startTime : Nat)
    (fuel : Nat) (sched : List Nat) (s : AsyncState) :
    s.g.now ≤ (asyncLoop bg thr startTime fuel sched s).g.now := by
  induction fuel generalizing sched s with
  | zero => exact le_refl _
  | succ n ih =>
    rw [asyncLoop]
    by_cases hemp : s.inflight.isEmpty
    · rw [if_pos hemp]
    · rw [if_neg hemp]
      refine le_trans ?_ (ih _ _)
      rw [asyncStep_now]
      omega

theorem asyncInit_all (bg : Bool) (thr : Nat → Nat) (K : Nat) (pages : List SPage)
    (g : GenState) (sb : Bool) (hK : 1 ≤ K) (hsb : g.stopped = sb) :
    AsyncAll bg thr g.now sb pages (asyncInit bg thr K pages g) := by
  unfold asyncInit
  by_cases hemp : (pages.take K).isEmpty
  · rw [if_pos hemp]
    have hpn : pages = [] := by
      rcases pages with _ | ⟨p, rest⟩
      · rfl
      · rw [List.take_cons (by omega)] at hemp
        exact absurd hemp (by simp)
    subst hpn
    refine ⟨⟨by simpa using hsb, by simp, by simp, by simp, by simp, by simp⟩,
      ⟨by simp, by simp, by simp, by simp⟩, by simp [AsyncTripInv], by simp⟩
  · rw [if_neg hemp]
    by_cases htrip : bg = true ∧ g.now < thr g.now
    · rw [if_pos htrip]
      refine ⟨⟨by simp, by simp, by simp, by simp, by simp, by simp⟩,
        ⟨by simp, ?_, by simp, by simp⟩, ?_, by simp⟩
      · intro p hp
        exact List.drop_subset _ _ hp
      · intro _
        exact ⟨htrip.1, g.now, le_refl _, htrip.2⟩
    · rw [if_neg htrip]
      have hne : pages ≠ [] := by
        intro hnil
        subst hnil
        exact hemp (by simp)
      refine ⟨⟨by simpa using hsb, by simp, by simp, by simp, ?_, ?_⟩,
        ⟨?_, ?_, by simp, ?_⟩, by simp [AsyncTripInv], ?_⟩
      · intro _
        simp only [List.length_take, List.length_drop]
        omega
      · intro _ _
        simpa [List.isEmpty_iff] using hemp
      · intro p hp
        exact List.take_subset _ _ hp
      · intro p hp
        exact List.drop_subset _ _ hp
      · intro _ p hp
        rcases List.mem_append.1 ((List.take_append_drop K pages) ▸ hp) with h | h
        · exact Or.inr (Or.inl h)
        · exact Or.inl h
      · intro _
        have : 0 < pages.length := List.length_pos.2 hne
        simp only []
        omega

theorem asyncThrottled_all (bg : Bool) (thr : Nat → Nat) (K : Nat) (pages : List SPage)
    (g : GenState) (sched : List Nat) (sb : Bool) (hK : 1 ≤ K) (hsb : g.stopped = sb) :
    AsyncAll bg thr g.now sb pages (generatePagesAsyncThrottled bg thr K pages g sched) := by
  unfold generatePagesAsyncThrottled
  exact asyncLoop_all bg thr g.now sb pages pages.length sched _
    (asyncInit_all bg thr K pages g sb hK hsb)

theorem asyncInit_measure (bg : Bool) (thr : Nat → Nat) (K : Nat) (pages : List SPage)
    (g : GenState) :
    (asyncInit bg thr K pages g).queue.length + (asyncInit bg thr K pages g).inflight.length
      ≤ pages.length := by
  unfold asyncInit
  repeat' split
  all_goals simp only [List.length_take, List.length_drop, List.length_nil]
  all_goals omega

theorem asyncThrottled_drained (bg : Bool) (thr : Nat → Nat) (K : Nat) (pages : List SPage)
    (g : GenState) (sched : List Nat) :
    (generatePagesAsyncThrottled bg thr K pages g sched).inflight = [] := by
  unfold generatePagesAsyncThrottled
  exact asyncLoop_drains bg thr g.now pages.length sched _ (asyncInit_measure bg thr K pages g)

theorem asyncStep_total_keep (bg : Bool) (thr : Nat → Nat) (startTime : Nat)
    (s : AsyncState) (choice : Nat) :
    (asyncStep bg thr startTime s choice).numPagesToGenerate = s.numPagesToGenerate := by
  simp only [asyncStep, settleWith]
  repeat' split
  all_goals rfl

theorem asyncLoop_total_keep (bg : Bool) (thr : Nat → Nat) (startTime : Nat)
    (fuel : Nat) (sched : List Nat) (s : AsyncState) :
    (asyncLoop bg thr startTime fuel sched s).numPagesToGenerate = s.numPagesToGenerate := by
  induction fuel generalizing sched s with
  | zero => rfl
  | succ n ih =>
    rw [asyncLoop]
    by_cases hemp : s.inflight.isEmpty
    · rw [if_pos hemp]
    · rw [if_neg hemp]
      rw [ih _ _, asyncStep_total_keep]

theorem asyncThrottled_total (bg : Bool) (thr : Nat → Nat) (K : Nat) (pages : List SPage)
    (g : GenState) (sched : List Nat) :
    (generatePagesAsyncThrottled bg thr K pages g sched).numPagesToGenerate = pages.length := by
  unfold generatePagesAsyncThrottled
  rw [asyncLoop_total_keep]
  unfold asyncInit
  repeat' split
  all_goals rfl

theorem asyncThrottled_settled (bg : Bool) (thr : Nat → Nat) (K : Nat) (pages : List SPage)
    (g : GenState) (sched : List Nat) (hK : 1 ≤ K) (hne : pages ≠ []) :
    (generatePagesAsyncThrottled bg thr K pages g sched).settle.isSome = true := by
  obtain ⟨⟨_, _, _, _, he, hf⟩, _, _, hg⟩ :=
    asyncThrottled_all bg thr K pages g sched g.stopped hK rfl
  have hdr := asyncThrottled_drained bg thr K pages g sched
  by_cases hs : (generatePagesAsyncThrottled bg thr K pages g sched).settle = none
  · exfalso
    have hq : (generatePagesAsyncThrottled bg thr K pages g sched).queue = [] := by
      by_cases hq2 : (generatePagesAsyncThrottled bg thr K pages g sched).queue = []
      · exact hq2
      · exact absurd hdr (hf hs hq2)
    have he2 := he hs
    rw [hdr, hq] at he2
    simp only [List.length_nil, Nat.add_zero] at he2
    rcases hg hs with h | h
    · omega
    · rw [asyncThrottled_total] at h
      exact hne (List.eq_nil_of_length_eq_zero h)
  · exact Option.isSome_iff_ne_none.2 hs

theorem asyncStep_oktrue_allok (bg : Bool) (thr : Nat → Nat) (startTime : Nat)
    (pages : List SPage) (s : AsyncState) (choice : Nat) (hne : s.inflight ≠ [])
    (he : s.settle = none →
      s.numPagesGenerated + s.inflight.length + s.queue.length = s.numPagesToGenerate)
    (hcov : s.settle = none → ∀ p ∈ pages, p ∈ s.queue ∨ p ∈ s.inflight ∨ p.genOk = true)
    (h2 : s.settle = some (.ok true) → ∀ p ∈ pages, p.genOk = true) :
    (asyncStep bg thr startTime s choice).settle = some (.ok true) →
      ∀ p ∈ pages, p.genOk = true := by
  have hlen : 0 < s.inflight.length := List.length_pos.2 hne
  have hi : choice % s.inflight.length < s.inflight.length := Nat.mod_lt _ hlen
  simp only [asyncStep, settleWith]
  repeat' split
  all_goals intro h p hp
  all_goals simp_all
  rename_i hgen hguard hqnil hnum hsnone
  rcases hcov p hp with hc | hc
  · have hone : s.inflight.length = 1 := by omega
    rcases List.length_eq_one.1 hone with ⟨a, ha⟩
    have hpa : p = a := by
      rw [ha] at hc
      exact List.mem_singleton.1 hc
    have hia : s.inflight[choice % s.inflight.length] = a := by
      simp only [ha, List.length_singleton, Nat.mod_one]
      rfl
    rw [hpa, ← hia]
    exact hgen
  · exact hc

theorem asyncLoop_oktrue_allok (bg : Bool) (thr : Nat → Nat) (startTime : Nat) (sb : Bool)
    (pages : List SPage) (fuel : Nat) (sched : List Nat) (s : AsyncState)
    (hall : AsyncAll bg thr startTime sb pages s)
    (h2 : s.settle = some (.ok true) → ∀ p ∈ pages, p.genOk = true) :
    (asyncLoop bg thr startTime fuel sched s).settle = some (.ok true) →
      ∀ p ∈ pages, p.genOk = true := by
  induction fuel generalizing sched s with
  | zero => exact h2
  | succ n ih =>
    rw [asyncLoop]
    by_cases hemp : s.inflight.isEmpty
    · rw [if_pos hemp]
      exact h2
    · rw [if_neg hemp]
      have hne : s.inflight ≠ [] := by simpa [List.isEmpty_iff] using hemp
      obtain ⟨⟨_, hb, _, _, he, _⟩, ⟨_, _, _, hcov⟩, _, _⟩ := id hall
      exact ih _ _ (asyncStep_all bg thr startTime sb pages s (sched.headD 0) hne hall)
        (asyncStep_oktrue_allok bg thr startTime pages s (sched.headD 0) hne he hcov h2)

theorem asyncThrottled_oktrue_allok (bg : Bool) (thr : Nat → Nat) (K : Nat)
    (pages : List SPage) (g : GenState) (sched : List Nat) (hK : 1 ≤ K) :
    (generatePagesAsyncThrottled bg thr K pages g sched).settle = some (.ok true) →
      ∀ p ∈ pages, p.genOk = true := by
  unfold generatePagesAsyncThrottled
  refine asyncLoop_oktrue_allok bg thr g.now g.stopped pages pages.length sched _
    (asyncInit_all bg thr K pages g g.stopped hK rfl) ?_
  unfold asyncInit
  repeat' split
  all_goals intro h
  all_goals simp_all

theorem asyncThrottled_bgfalse_isCompleted (thr : Nat → Nat) (K : Nat) (pages : List SPage)
    (g : GenState) (sched : List Nat) (hK : 1 ≤ K) :
    (generatePagesAsyncThrottled false thr K pages g sched).isCompleted = true := by
  obtain ⟨_, _, ht, _⟩ := asyncThrottled_all false thr K pages g sched g.stopped hK rfl
  by_cases h : (generatePagesAsyncThrottled false thr K pages g sched).isCompleted = true
  · exact h
  · have := (ht (by simpa using h)).1
    exact absurd this (by simp)

theorem seqGo_error_first_fail (thr : Nat → Nat) (startTime : Nat) (pre post : List SPage)
    (p : SPage) (g : GenState) (c : Bool)
    (hpre : ∀ q ∈ pre, q.genOk = true) (hp : p.genOk = false) :
    ∃ g2, generatePagesSequentialGo false thr startTime (pre ++ p :: post) g c =
        .error ("Error while generating " ++ p.src, g2)
      ∧ g2.events = g.events
          ++ pre.flatMap (fun q => [Ev.dispatch q.key, Ev.complete q.key, Ev.del q.key])
          ++ [Ev.dispatch p.key, Ev.complete p.key] := by
  induction pre generalizing g with
  | nil =>
    refine ⟨{ g with
        now := g.now + 1
        events := g.events ++ [Ev.dispatch p.key, Ev.complete p.key] }, ?_, ?_⟩
    · show generatePagesSequentialGo false thr startTime (p :: post) g c = _
      rw [generatePagesSequentialGo]
      rw [if_neg (by simp), if_neg (by simp [hp])]
    · simp
  | cons q rest ih =>
    have hq : q.genOk = true := hpre q (List.mem_cons_self _ _)
    obtain ⟨g2, h1, h2⟩ := ih
      { g with
        now := g.now + 1
        toRebuild := g.toRebuild.erase q.key
        events := g.events ++ [.dispatch q.key, .complete q.key, .del q.key] }
      (fun r hr => hpre r (List.mem_cons_of_mem _ hr))
    refine ⟨g2, ?_, ?_⟩
    · show generatePagesSequentialGo false thr startTime (q :: (rest ++ p :: post)) g c = _
      rw [generatePagesSequentialGo]
      rw [if_neg (by simp), if_pos hq]
      exact h1
    · rw [h2]
      simp

/-- C9: with no cancellation in play, a failing `generate` aborts the
enclosing task: a sequential task rejects with `Error while generating
<sourcePath>` of the failing page and dispatches none of the later pages (its
trace stops at the failing dispatch); a concurrent task rejects the whole
batch with an error naming a failing page of the batch. -/
theorem c9_generation_failure :
    (∀ (thr : Nat → Nat) (pre post : List SPage) (p : SPage) (g : GenState),
      (∀ q ∈ pre, q.genOk = true) → p.genOk = false →
      ∃ g2, generatePagesSequential false thr (pre ++ p :: post) g =
          .error ("Error while generating " ++ p.src, g2)
        ∧ g2.events = g.events
            ++ pre.flatMap (fun q => [Ev.dispatch q.key, Ev.complete q.key, Ev.del q.key])
            ++ [Ev.dispatch p.key, Ev.complete p.key]) ∧
    (∀ (thr : Nat → Nat) (K : Nat) (pages : List SPage) (g : GenState) (sched : List Nat),
      1 ≤ K → (∃ p ∈ pages, p.genOk = false) →
      ∃ p ∈ pages, p.genOk = false ∧
        (generatePagesAsyncThrottled false thr K pages g sched).settle =
          some (.error ("Error while generating " ++ p.src))) := by
  constructor
  · intro thr pre post p g hpre hp
    exact seqGo_error_first_fail thr g.now pre post p g true hpre hp
  · intro thr K pages g sched hK hbad
    obtain ⟨pbad, hpmem, hpbad⟩ := hbad
    have hne : pages ≠ [] := fun h => by
      rw [h] at hpmem
      exact absurd hpmem (List.not_mem_nil pbad)
    cases hsome : (generatePagesAsyncThrottled false thr K pages g sched).settle with
    | none =>
      have hsett := asyncThrottled_settled false thr K pages g sched hK hne
      rw [hsome] at hsett
      exact absurd hsett (by simp)
    | some r =>
      cases r with
      | ok b =>
        cases b with
        | false =>
          have hic := asyncThrottled_bgfalse_isCompleted thr K pages g sched hK
          have hc := (asyncThrottled_all false thr K pages g sched g.stopped hK rfl).1.2.2.1
          rw [hc hsome] at hic
          exact absurd hic (by simp)
        | true =>
          have := asyncThrottled_oktrue_allok false thr K pages g sched hK hsome pbad hpmem
          rw [this] at hpbad
          exact absurd hpbad (by simp)
      | error e =>
        have hprov := (asyncThrottled_all false thr K pages g sched g.stopped hK rfl).2.1.2.2.1
        obtain ⟨p, hpm, hpg, hpe⟩ := hprov e hsome
        exact ⟨p, hpm, hpg, by rw [hpe]⟩

theorem c9_generation_failure_witness :
    (∃ g2, generatePagesSequential false (fun _ => 0)
        (([⟨"a", "a.md", true⟩] : List SPage) ++ ⟨"b", "b.md", false⟩ :: [⟨"c", "c.md", true⟩])
        ⟨0, [], false, []⟩ =
        .error ("Error while generating " ++ "b.md", g2)
      ∧ g2.events = ([] : List Ev)
          ++ ([⟨"a", "a.md", true⟩] : List SPage).flatMap
              (fun q => [Ev.dispatch q.key, Ev.complete q.key, Ev.del q.key])
          ++ [Ev.dispatch "b", Ev.complete "b"]) ∧
    (∃ p ∈ [(⟨"b", "b.md", false⟩ : SPage)], p.genOk = false ∧
      (generatePagesAsyncThrottled false (fun _ => 0) 1 [⟨"b", "b.md", false⟩]
        ⟨0, [], false, []⟩ []).settle =
        some (.error ("Error while generating " ++ p.src))) :=
  ⟨c9_generation_failure.1 (fun _ => 0) [⟨"a", "a.md", true⟩] [⟨"c", "c.md", true⟩]
      ⟨"b", "b.md", false⟩ ⟨0, [], false, []⟩ (by decide) rfl,
   c9_generation_failure.2 (fun _ => 0) 1 [⟨"b", "b.md", false⟩] ⟨0, [], false, []⟩ []
      (by decide) ⟨⟨"b", "b.md", false⟩, by decide, rfl⟩⟩

/-- A successful run of the sequential loop never decreases the clock. -/
theorem seqGo_now_mono (bg : Bool) (thr : Nat → Nat) (st : Nat) (pages : List SPage)
    (g : GenState) (c b : Bool) (g2 : GenState)
    (h : generatePagesSequentialGo bg thr st pages g c = .ok (b, g2)) : g.now ≤ g2.now := by
  induction pages generalizing g c with
  | nil =>
    simp only [generatePagesSequentialGo, Except.ok.injEq, Prod.mk.injEq] at h
    rw [← h.2]
  | cons p rest ih =>
    rw [generatePagesSequentialGo] at h
    split at h
    · exact le_trans (Nat.le_succ _) (ih _ _ h)
    · split at h
      · exact le_trans (Nat.le_succ _) (ih _ _ h)
      · exact Except.noConfusion h

/-- Once `isCompleted` is false, the sequential loop reports false. -/
theorem seqGo_false (bg : Bool) (thr : Nat → Nat) (st : Nat) (pages : List SPage)
    (g : GenState) (b : Bool) (g2 : GenState)
    (h : generatePagesSequentialGo bg thr st pages g false = .ok (b, g2)) : b = false := by
  induction pages generalizing g with
  | nil =>
    simp only [generatePagesSequentialGo, Except.ok.injEq, Prod.mk.injEq] at h
    exact h.1.symm
  | cons p rest ih =>
    rw [generatePagesSequentialGo] at h
    split at h
    · exact ih _ h
    · split at h
      · exact ih _ h
      · exact Except.noConfusion h

/-- The sequential loop never clears the `stopped` flag. -/
theorem seqGo_stopped_mono (bg : Bool) (thr : Nat → Nat) (st : Nat) (pages : List SPage)
    (g : GenState) (c b : Bool) (g2 : GenState)
    (h : generatePagesSequentialGo bg thr st pages g c = .ok (b, g2))
    (hs : g.stopped = true) : g2.stopped = true := by
  induction pages generalizing g c with
  | nil =>
    simp only [generatePagesSequentialGo, Except.ok.injEq, Prod.mk.injEq] at h
    rw [← h.2]; exact hs
  | cons p rest ih =>
    rw [generatePagesSequentialGo] at h
    split at h
    · exact ih _ _ h rfl
    · split at h
      · exact ih _ _ h hs
      · exact Except.noConfusion h

/-- Starting with `isCompleted = true`, the sequential loop sets `stopped`
exactly when it either started stopped or reports false. -/
theorem seqGo_stopped_iff (bg : Bool) (thr : Nat → Nat) (st : Nat) (pages : List SPage)
    (g : GenState) (b : Bool) (g2 : GenState)
    (h : generatePagesSequentialGo bg thr st pages g true = .ok (b, g2)) :
    (g2.stopped = true ↔ (g.stopped = true ∨ b = false)) := by
  induction pages generalizing g with
  | nil =>
    simp only [generatePagesSequentialGo, Except.ok.injEq, Prod.mk.injEq] at h
    rw [← h.1, ← h.2]; simp
  | cons p rest ih =>
    rw [generatePagesSequentialGo] at h
    split at h
    · have hb := seqGo_false _ _ _ _ _ _ _ h
      have hs := seqGo_stopped_mono _ _ _ _ _ _ _ _ h rfl
      rw [hb, hs]; simp
    · split at h
      · have hih := ih _ h
        exact hih
      · exact Except.noConfusion h

/-- If the sequential loop reports false, either it already started with
`isCompleted = false`, or the cancellation guard tripped: the task runs in
background mode and some instant no later than the final clock has a
horizon past the recorded start time. -/
theorem seqGo_trip_time (bg : Bool) (thr : Nat → Nat) (st : Nat) (pages : List SPage)
    (g : GenState) (c : Bool) (g2 : GenState)
    (h : generatePagesSequentialGo bg thr st pages g c = .ok (false, g2)) :
    c = false ∨ (bg = true ∧ ∃ u, u ≤ g2.now ∧ st < thr u) := by
  induction pages generalizing g c with
  | nil =>
    simp only [generatePagesSequentialGo, Except.ok.injEq, Prod.mk.injEq] at h
    exact Or.inl h.1
  | cons p rest ih =>
    rw [generatePagesSequentialGo] at h
    split at h
    · rename_i hg
      refine Or.inr ⟨hg.1, g.now, ?_, hg.2⟩
      exact le_trans (Nat.le_succ _) (seqGo_now_mono _ _ _ _ _ _ _ _ h)
    · split at h
      · exact ih _ _ h
      · exact Except.noConfusion h

theorem asyncInit_now (bg : Bool) (thr : Nat → Nat) (K : Nat) (pages : List SPage)
    (g : GenState) : (asyncInit bg thr K pages g).g.now = g.now := by
  unfold asyncInit
  repeat' split
  all_goals rfl

/-- The throttled pool never decreases the clock. -/
theorem asyncThrottled_now_mono (bg : Bool) (thr : Nat → Nat) (K : Nat)
    (pages : List SPage) (g : GenState) (sched : List Nat) :
    g.now ≤ (generatePagesAsyncThrottled bg thr K pages g sched).g.now := by
  unfold generatePagesAsyncThrottled
  refine le_trans ?_ (asyncLoop_now_mono bg thr g.now pages.length sched _)
  rw [asyncInit_now]

/-- The task loop of `runPageGenerationTasks`, run under a monotone horizon
from a state whose `isCompleted` value mirrors the ghost `stopped` flag and
whose `stopped` flag is justified by an observed trip: if it returns a
boolean, that boolean is false exactly when some cancellation branch ran. -/
theorem runTasksGo_ok_iff (bg : Bool) (thr : Nat → Nat) (K : Nat) (runStart : Nat)
    (tasks : List GenTask) (scheds : List (List Nat)) (c : Bool) (g : GenState)
    (b : Bool) (g2 : GenState)
    (hmono : ∀ x y, x ≤ y → thr x ≤ thr y) (hK : 1 ≤ K)
    (hrs : runStart ≤ g.now)
    (hcs : c = false ↔ g.stopped = true)
    (htrip : g.stopped = true → bg = true ∧ ∃ u, u ≤ g.now ∧ runStart < thr u)
    (h : runTasksGo bg thr K runStart tasks scheds c g = (some (.ok b), g2)) :
    (b = false ↔ g2.stopped = true) := by
  induction tasks generalizing scheds c g with
  | nil =>
    rw [runTasksGo] at h
    obtain ⟨h1, h2⟩ := Prod.mk.injEq .. ▸ h
    rw [← Option.some.inj h1 |> Except.ok.inj, ← h2]
    exact hcs
  | cons t rest ih =>
    rw [runTasksGo] at h
    split at h
    · rename_i hg
      refine ih _ _ _ (le_trans hrs (Nat.le_succ _)) (by simp) ?_ h
      intro _
      exact ⟨hg.1, g.now, Nat.le_succ _, hg.2⟩
    · rename_i hng
      have hnstop : g.stopped = false := by
        by_cases hs : g.stopped = true
        · obtain ⟨hbg, u, hu, hlt⟩ := htrip hs
          exact absurd ⟨hbg, lt_of_lt_of_le hlt (hmono u g.now hu)⟩ hng
        · simpa using hs
      revert h
      cases t with
      | mk mode pages =>
        cases mode with
        | sequential =>
          simp only [runTask, generatePagesSequential]
          cases hrun : generatePagesSequentialGo bg thr g.now pages g true with
          | error e =>
            intro h
            exact absurd ((Prod.mk.injEq .. ▸ h).1) (by simp)
          | ok r =>
            obtain ⟨b1, g3⟩ := r
            intro h
            have hcs3 : b1 = false ↔ g3.stopped = true := by
              rw [seqGo_stopped_iff bg thr g.now pages g b1 g3 hrun, hnstop]
              simp
            refine ih scheds.tail b1 { g3 with now := g3.now + 1 } ?_ hcs3 ?_ h
            · exact le_trans hrs
                (le_trans (seqGo_now_mono bg thr g.now pages g true b1 g3 hrun)
                  (Nat.le_succ _))
            · intro hs3
              have hb1 : b1 = false := hcs3.2 hs3
              rcases seqGo_trip_time bg thr g.now pages g true g3 (hb1 ▸ hrun) with
                hcf | ⟨hbg, u, hu, hlt⟩
              · exact absurd hcf (by simp)
              · exact ⟨hbg, u, le_trans hu (Nat.le_succ _),
                  lt_of_le_of_lt hrs hlt⟩
        | async =>
          simp only [runTask, settleOutcome]
          obtain ⟨⟨ha, _, hc3, hd3, _, _⟩, _, ht3, _⟩ :=
            asyncThrottled_all bg thr K pages g (scheds.headD []) g.stopped hK rfl
          have hnow := asyncThrottled_now_mono bg thr K pages g (scheds.headD [])
          cases hset : (generatePagesAsyncThrottled bg thr K pages g (scheds.headD [])).settle with
          | none =>
            intro h
            exact absurd ((Prod.mk.injEq .. ▸ h).1) (by simp)
          | some r =>
            cases r with
            | error e =>
              intro h
              exact absurd ((Prod.mk.injEq .. ▸ h).1) (by simp)
            | ok b1 =>
              intro h
              have hcs3 : b1 = false ↔
                  (generatePagesAsyncThrottled bg thr K pages g (scheds.headD [])).g.stopped
                    = true := by
                cases b1 with
                | false =>
                  have hic := hc3 hset
                  rw [ha, hic, hnstop]
                  simp
                | true =>
                  have hic := (hd3 hset).1
                  rw [ha, hic, hnstop]
                  simp
              refine ih scheds.tail b1
                { generatePagesAsyncThrottled bg thr K pages g (scheds.headD []) |>.g with
                  now := (generatePagesAsyncThrottled bg thr K pages g
                    (scheds.headD [])).g.now + 1 }
                (le_trans hrs (le_trans hnow (Nat.le_succ _))) hcs3 ?_ h
              intro hs3
              have hb1 : b1 = false := hcs3.2 hs3
              have hic : (generatePagesAsyncThrottled bg thr K pages g
                  (scheds.headD [])).isCompleted = false := hc3 (hb1 ▸ hset)
              obtain ⟨hbg, u, hu, hlt⟩ := ht3 hic
              exact ⟨hbg, u, le_trans hu (Nat.le_succ _), lt_of_le_of_lt hrs hlt⟩

/-- C1 (counterexample): a run containing a concurrent task over zero pages
dispatches nothing, its promise never settles, and `runPageGenerationTasks`
never returns — in particular it does not return true — even though no task
was cut short by cancellation (the ghost `stopped` flag stays false). -/
theorem c1_counterexample :
    (runPageGenerationTasks false (fun _ => 0) MAX_CONCURRENT_PAGE_GENERATION_PROMISES
        [⟨.async, []⟩] [[]] ⟨0, [], false, []⟩).1 = none ∧
    (runPageGenerationTasks false (fun _ => 0) MAX_CONCURRENT_PAGE_GENERATION_PROMISES
        [⟨.async, []⟩] [[]] ⟨0, [], false, []⟩).2.stopped = false :=
  ⟨rfl, rfl⟩

/-- C1 (amended): whenever `runPageGenerationTasks` does return a boolean,
the cancellation horizon is non-decreasing over time, the pool bound is
positive, and the run starts with a clean cancellation flag, the returned
boolean is false exactly when some task of the sequence was cut short by a
cancellation branch (ghost flag `stopped`); in particular a cut-short task
is never followed by a completed run reporting true, because once the
horizon passes the run start every later pre-task guard re-trips. -/
theorem c1_run_tasks_amended (bg : Bool) (thr : Nat → Nat) (K : Nat)
    (tasks : List GenTask) (scheds : List (List Nat)) (g : GenState) (b : Bool)
    (g2 : GenState)
    (hmono : ∀ x y, x ≤ y → thr x ≤ thr y) (hK : 1 ≤ K)
    (hstop : g.stopped = false)
    (h : runPageGenerationTasks bg thr K tasks scheds g = (some (.ok b), g2)) :
    (b = false ↔ g2.stopped = true) := by
  unfold runPageGenerationTasks at h
  exact runTasksGo_ok_iff bg thr K g.now tasks scheds true g b g2 hmono hK (le_refl _)
    (by simp [hstop]) (by simp [hstop]) h

theorem c1_run_tasks_amended_witness :
    (true = false ↔
      (⟨2, [], false, [Ev.dispatch "a", Ev.complete "a", Ev.del "a"]⟩ : GenState).stopped
        = true) :=
  c1_run_tasks_amended false (fun _ => 0) 1
    [⟨.sequential, [⟨"a", "a.md", true⟩]⟩] [[]] ⟨0, [], false, []⟩ true
    ⟨2, [], false, [Ev.dispatch "a", Ev.complete "a", Ev.del "a"]⟩
    (fun _ _ _ => Nat.le_refl 0) (by decide) rfl rfl

theorem dispatches_append (a b : List Ev) :
    dispatches (a ++ b) = dispatches a ++ dispatches b := by
  unfold dispatches
  exact List.filterMap_append _ _ _

theorem asyncStep_isCompleted_false (bg : Bool) (thr : Nat → Nat) (startTime : Nat)
    (s : AsyncState) (choice : Nat) (h : s.isCompleted = false) :
    (asyncStep bg thr startTime s choice).isCompleted = false := by
  simp only [asyncStep, settleWith]
  repeat' split
  all_goals simp_all

/-- Once the horizon has passed the start time, a completion event dispatches
no replacement: the post-generate guard (or the popped callback of the
pre-generate guard at the same instant) cancels instead. -/
theorem asyncStep_dispatches_trip (thr : Nat → Nat) (startTime : Nat)
    (s : AsyncState) (choice : Nat) (hguard : startTime < thr (s.g.now + 1)) :
    dispatches (asyncStep true thr startTime s choice).g.events
      = dispatches s.g.events := by
  simp only [asyncStep, settleWith]
  repeat' split
  all_goals simp_all [dispatches_append, dispatches]

theorem asyncStep_cancelled (thr : Nat → Nat) (startTime : Nat) (s : AsyncState)
    (choice : Nat) (hmono : ∀ x y, x ≤ y → thr x ≤ thr y)
    (hc : Cancelled thr startTime s) :
    Cancelled thr startTime (asyncStep true thr startTime s choice) ∧
    dispatches (asyncStep true thr startTime s choice).g.events
      = dispatches s.g.events := by
  obtain ⟨hs, hic, u, hu, htr⟩ := hc
  have hguard : startTime < thr (s.g.now + 1) :=
    lt_of_lt_of_le htr (hmono u (s.g.now + 1) (le_trans hu (Nat.le_succ _)))
  refine ⟨⟨?_, asyncStep_isCompleted_false _ _ _ _ _ hic, u, ?_, htr⟩,
    asyncStep_dispatches_trip _ _ _ _ hguard⟩
  · rw [asyncStep_settle_of_isSome _ _ _ _ _ (by rw [hs]; rfl)]
    exact hs
  · rw [asyncStep_now]
    exact le_trans hu (Nat.le_succ _)

theorem asyncLoop_cancelled (thr : Nat → Nat) (startTime : Nat) (fuel : Nat)
    (sched : List Nat) (s : AsyncState)
    (hmono : ∀ x y, x ≤ y → thr x ≤ thr y) (hc : Cancelled thr startTime s) :
    Cancelled thr startTime (asyncLoop true thr startTime fuel sched s) ∧
    dispatches (asyncLoop true thr startTime fuel sched s).g.events
      = dispatches s.g.events := by
  induction fuel generalizing sched s with
  | zero => exact ⟨hc, rfl⟩
  | succ n ih =>
    rw [asyncLoop]
    by_cases hemp : s.inflight.isEmpty
    · rw [if_pos hemp]
      exact ⟨hc, rfl⟩
    · rw [if_neg hemp]
      obtain ⟨hc2, hd2⟩ := asyncStep_cancelled thr startTime s (sched.headD 0) hmono hc
      obtain ⟨hc3, hd3⟩ := ih sched.tail _ hc2
      exact ⟨hc3, hd3.trans hd2⟩

/-- A pending pool whose tripping guard fires at a completion of a
successful page resolves false and marks the context incomplete. -/
theorem asyncStep_first_settle (thr : Nat → Nat) (startTime : Nat) (s : AsyncState)
    (choice : Nat) (hset : s.settle = none) (hic : s.isCompleted = true)
    (hok : ∀ p ∈ s.inflight, p.genOk = true) (hne : s.inflight ≠ [])
    (hguard : startTime < thr (s.g.now + 1)) :
    (asyncStep true thr startTime s choice).settle = some (.ok false) ∧
    (asyncStep true thr startTime s choice).isCompleted = false := by
  have hlen : 0 < s.inflight.length := List.length_pos.2 hne
  have hpok : (s.inflight.getD (choice % s.inflight.length) defaultSPage).genOk = true := by
    refine hok _ ?_
    rw [List.getD_eq_getElem?_getD, List.getElem?_eq_getElem (Nat.mod_lt _ hlen)]
    exact List.getElem_mem _
  simp only [asyncStep, settleWith]
  repeat' split
  all_goals simp_all

theorem dispatches_map_dispatch (l : List SPage) :
    dispatches (l.map (fun p => Ev.dispatch p.key)) = l.map (fun p => p.key) := by
  induction l with
  | nil => rfl
  | cons a t ih =>
    simp only [List.map_cons, dispatches, List.filterMap_cons] at ih ⊢
    rw [ih]

/-- Once the guard trips, the sequential loop cancels at every remaining
page: it reports false, sets the ghost flag, and leaves the pending set and
the trace untouched. -/
theorem seqGo_alltrip (thr : Nat → Nat) (st : Nat)
    (hmono : ∀ x y, x ≤ y → thr x ≤ thr y) (pages : List SPage) (g : GenState)
    (c : Bool) :
    st < thr g.now → pages ≠ [] →
    ∃ n, generatePagesSequentialGo true thr st pages g c
      = .ok (false, { g with now := n, stopped := true }) := by
  induction pages generalizing g c with
  | nil =>
    intro _ hne
    exact absurd rfl hne
  | cons p rest ih =>
    intro htr _
    rw [generatePagesSequentialGo, if_pos ⟨rfl, htr⟩]
    by_cases hr : rest = []
    · subst hr
      exact ⟨g.now + 1, rfl⟩
    · obtain ⟨n, hn⟩ := ih { g with now := g.now + 1, stopped := true } false
        (lt_of_lt_of_le htr (hmono _ _ (Nat.le_succ _))) hr
      exact ⟨n, hn⟩

/-- C2 (counterexample): advancing the cancellation horizon past the start
time of a task cancels nothing unless background-build mode is on — the
guards all test `this.backgroundBuildMode` first.  Here the horizon (1)
is past the recorded start time (0) at every instant, yet the sequential
task dispatches both its pages and reports completed = true. -/
theorem c2_counterexample :
    generatePagesSequential false (fun _ => 1)
        [⟨"a", "a.md", true⟩, ⟨"b", "b.md", true⟩] ⟨0, [], false, []⟩
      = .ok (true, ⟨2, [],
          false,
          [Ev.dispatch "a", Ev.complete "a", Ev.del "a",
           Ev.dispatch "b", Ev.complete "b", Ev.del "b"]⟩) := rfl

theorem delsOk_append (a : Option String) (xs ys : List Ev)
    (hy : delsOk none ys = true) (hhead : ∀ k rest, ys ≠ Ev.del k :: rest) :
    delsOk a xs = true → delsOk a (xs ++ ys) = true := by
  induction xs generalizing a with
  | nil =>
    intro _
    rw [List.nil_append]
    cases ys with
    | nil => rfl
    | cons e rest =>
      cases e with
      | dispatch k => exact hy
      | complete k => exact hy
      | del k => exact absurd rfl (hhead k rest)
  | cons e rest ih =>
    cases e with
    | dispatch k =>
      intro hx
      exact ih none hx
    | complete k =>
      intro hx
      exact ih (some k) hx
    | del k =>
      intro hx
      simp only [delsOk, Bool.and_eq_true] at hx ⊢
      exact ⟨hx.1, ih none hx.2⟩

theorem delsOk_map_dispatch (l : List SPage) :
    delsOk none (l.map (fun p => Ev.dispatch p.key)) = true := by
  induction l with
  | nil => rfl
  | cons p rest ih => exact ih

theorem seqGo_delsOk (bg : Bool) (thr : Nat → Nat) (st : Nat) (pages : List SPage)
    (g : GenState) (c : Bool) :
    delsPaired g.events = true →
    (∀ b g2, generatePagesSequentialGo bg thr st pages g c = .ok (b, g2) →
      delsPaired g2.events = true) ∧
    (∀ e g2, generatePagesSequentialGo bg thr st pages g c = .error (e, g2) →
      delsPaired g2.events = true) := by
  induction pages generalizing g c with
  | nil =>
    intro hd
    constructor
    · intro b g2 h
      simp only [generatePagesSequentialGo, Except.ok.injEq, Prod.mk.injEq] at h
      rw [← h.2]
      exact hd
    · intro e g2 h
      exact Except.noConfusion h
  | cons p rest ih =>
    intro hd
    constructor
    · intro b g2 h
      rw [generatePagesSequentialGo] at h
      split at h
      · exact (ih { g with now := g.now + 1, stopped := true } false hd).1 _ _ h
      · split at h
        · refine (ih _ _ ?_).1 _ _ h
          exact delsOk_append none _ _ (by simp [delsOk]) (by simp) hd
        · exact Except.noConfusion h
    · intro e g2 h
      rw [generatePagesSequentialGo] at h
      split at h
      · exact (ih { g with now := g.now + 1, stopped := true } false hd).2 _ _ h
      · split at h
        · refine (ih _ _ ?_).2 _ _ h
          exact delsOk_append none _ _ (by simp [delsOk]) (by simp) hd
        · simp only [Except.error.injEq, Prod.mk.injEq] at h
          rw [← h.2]
          exact delsOk_append none _ _ (by simp [delsOk]) (by simp) hd

theorem asyncStep_delsPaired (bg : Bool) (thr : Nat → Nat) (st : Nat)
    (s : AsyncState) (choice : Nat) (hd : delsPaired s.g.events = true) :
    delsPaired (asyncStep bg thr st s choice).g.events = true := by
  unfold delsPaired at hd ⊢
  simp only [asyncStep, settleWith]
  repeat' split
  all_goals simp only [List.append_assoc, List.cons_append, List.singleton_append,
    List.nil_append]
  all_goals exact delsOk_append none _ _ (by simp [delsOk]) (by simp) hd

theorem asyncLoop_delsPaired (bg : Bool) (thr : Nat → Nat) (st : Nat) (fuel : Nat)
    (sched : List Nat) (s : AsyncState) (hd : delsPaired s.g.events = true) :
    delsPaired (asyncLoop bg thr st fuel sched s).g.events = true := by
  induction fuel generalizing sched s with
  | zero => exact hd
  | succ n ih =>
    rw [asyncLoop]
    by_cases hemp : s.inflight.isEmpty
    · rw [if_pos hemp]
      exact hd
    · rw [if_neg hemp]
      exact ih sched.tail _ (asyncStep_delsPaired bg thr st s (sched.headD 0) hd)

theorem asyncInit_delsPaired (bg : Bool) (thr : Nat → Nat) (K : Nat)
    (pages : List SPage) (g : GenState) (hd : delsPaired g.events = true) :
    delsPaired (asyncInit bg thr K pages g).g.events = true := by
  unfold delsPaired at hd ⊢
  unfold asyncInit
  repeat' split
  · exact hd
  · exact hd
  · refine delsOk_append none _ _ (delsOk_map_dispatch _) ?_ hd
    intro k rest
    cases pages.take K with
    | nil => simp
    | cons q l => simp

theorem asyncThrottled_delsPaired (bg : Bool) (thr : Nat → Nat) (K : Nat)
    (pages : List SPage) (g : GenState) (sched : List Nat)
    (hd : delsPaired g.events = true) :
    delsPaired (generatePagesAsyncThrottled bg thr K pages g sched).g.events = true := by
  unfold generatePagesAsyncThrottled
  exact asyncLoop_delsPaired bg thr g.now pages.length sched _
    (asyncInit_delsPaired bg thr K pages g hd)

theorem rebuildGo_events (pages : List SPage) (urls : List String) (g : GenState) :
    (rebuildPageBeingViewedGo pages urls g).events
      = g.events ++ urls.flatMap (fun url =>
          match pages.find? (fun p => p.key = url) with
          | none => []
          | some p => [.del url, .dispatch p.key, .complete p.key]) := by
  induction urls generalizing g with
  | nil => simp [rebuildPageBeingViewedGo]
  | cons url rest ih =>
    rw [rebuildPageBeingViewedGo]
    cases hf : pages.find? (fun p => p.key = url) with
    | none =>
      rw [ih]
      simp [hf]
    | some p =>
      rw [ih]
      simp [hf]

/-- C3 (counterexample): `_rebuildPageBeingViewed` removes the key from the
pending set *before* dispatching the generate call: the trace of a one-page
rebuild is removal, then dispatch, then completion, which violates the
pairing of removals with completions. -/
theorem c3_counterexample :
    (rebuildPageBeingViewed [⟨"a", "a.md", true⟩] ["a"] ⟨0, ["a"], false, []⟩).events
      = [Ev.del "a", Ev.dispatch "a", Ev.complete "a"] ∧
    delsPaired
        (rebuildPageBeingViewed [⟨"a", "a.md", true⟩] ["a"] ⟨0, ["a"], false, []⟩).events
      = false :=
  ⟨rfl, rfl⟩

/-- C3 (amended): sequential and concurrent generation tasks remove a key
from the pending set exactly when that page's generate call completes — in
every reachable trace each removal is immediately preceded by that page's
completion, whether the task returns or throws — but
`_rebuildPageBeingViewed` does not: for each rebuilt url it deletes the key
first and only then dispatches and awaits the generate call. -/
theorem c3_pending_set_amended :
    (∀ bg thr pages g b g2,
      generatePagesSequential bg thr pages g = .ok (b, g2) →
      delsPaired g.events = true → delsPaired g2.events = true) ∧
    (∀ bg thr pages g e g2,
      generatePagesSequential bg thr pages g = .error (e, g2) →
      delsPaired g.events = true → delsPaired g2.events = true) ∧
    (∀ bg thr K pages g sched, delsPaired g.events = true →
      delsPaired (generatePagesAsyncThrottled bg thr K pages g sched).g.events = true) ∧
    (∀ pages urls g, (rebuildPageBeingViewed pages urls g).events
      = g.events ++ (jsUniq urls).flatMap (fun url =>
          match pages.find? (fun p => p.key = url) with
          | none => []
          | some p => [.del url, .dispatch p.key, .complete p.key])) := by
  refine ⟨?_, ?_, ?_, ?_⟩
  · intro bg thr pages g b g2 h hd
    exact (seqGo_delsOk bg thr g.now pages g true hd).1 _ _ h
  · intro bg thr pages g e g2 h hd
    exact (seqGo_delsOk bg thr g.now pages g true hd).2 _ _ h
  · intro bg thr K pages g sched hd
    exact asyncThrottled_delsPaired bg thr K pages g sched hd
  · intro pages urls g
    exact rebuildGo_events pages (jsUniq urls) g

theorem c3_pending_set_amended_witness :
    (delsPaired [Ev.dispatch "a", Ev.complete "a", Ev.del "a"] = true) ∧
    (delsPaired [Ev.dispatch "b", Ev.complete "b"] = true) ∧
    (delsPaired (generatePagesAsyncThrottled false (fun _ => 0) 1
        [⟨"a", "a.md", true⟩] ⟨0, [], false, []⟩ []).g.events = true) :=
  ⟨c3_pending_set_amended.1 false (fun _ => 0) [⟨"a", "a.md", true⟩] ⟨0, [], false, []⟩
      true ⟨1, [], false, [Ev.dispatch "a", Ev.complete "a", Ev.del "a"]⟩ rfl rfl,
   c3_pending_set_amended.2.1 false (fun _ => 0) [⟨"b", "b.md", false⟩] ⟨0, [], false, []⟩
      ("Error while generating " ++ "b.md")
      ⟨1, [], false, [Ev.dispatch "b", Ev.complete "b"]⟩ rfl rfl,
   c3_pending_set_amended.2.2.1 false (fun _ => 0) 1 [⟨"a", "a.md", true⟩]
      ⟨0, [], false, []⟩ [] rfl⟩

theorem countOf_append (a b : List Ev) : countOf (a ++ b) = countOf a + countOf b := by
  unfold countOf
  rw [List.map_append, List.sum_append]

theorem completesCount_append (a b : List Ev) :
    completesCount (a ++ b) = completesCount a + completesCount b := by
  unfold completesCount
  rw [List.countP_append]

theorem takeWhile_all_append (p : Ev → Bool) (xs : List Ev) (y : Ev) (t : List Ev)
    (hx : ∀ x ∈ xs, p x = true) (hy : p y = false) :
    (xs ++ y :: t).takeWhile p = xs := by
  induction xs with
  | nil => simp [List.takeWhile_cons, hy]
  | cons a rest ih =>
    rw [List.cons_append, List.takeWhile_cons, hx a (List.mem_cons_self a rest),
      ih (fun x hx2 => hx x (List.mem_cons_of_mem a hx2))]
    simp

/-- Every completion event of the pool appends the completion of the chosen
in-flight page first, then possibly removal and replacement-dispatch
events. -/
theorem asyncStep_events_complete (bg : Bool) (thr : Nat → Nat) (st : Nat)
    (s : AsyncState) (choice : Nat) :
    ∃ t, (asyncStep bg thr st s choice).g.events
      = s.g.events
        ++ .complete ((s.inflight.getD (choice % s.inflight.length) defaultSPage).key)
          :: t := by
  simp only [asyncStep, settleWith]
  repeat' split
  all_goals simp only [List.append_assoc]
  all_goals exact ⟨_, rfl⟩

theorem asyncLoop_events_mono (bg : Bool) (thr : Nat → Nat) (st : Nat) (fuel : Nat)
    (sched : List Nat) (s : AsyncState) :
    ∃ t, (asyncLoop bg thr st fuel sched s).g.events = s.g.events ++ t := by
  induction fuel generalizing sched s with
  | zero => exact ⟨[], by simp [asyncLoop]⟩
  | succ n ih =>
    rw [asyncLoop]
    by_cases hemp : s.inflight.isEmpty
    · rw [if_pos hemp]
      exact ⟨[], by simp⟩
    · rw [if_neg hemp]
      obtain ⟨t1, ht1⟩ := asyncStep_events_complete bg thr st s (sched.headD 0)
      obtain ⟨t2, ht2⟩ := ih sched.tail (asyncStep bg thr st s (sched.headD 0))
      refine ⟨(.complete ((s.inflight.getD ((sched.headD 0) % s.inflight.length)
          defaultSPage).key) :: t1) ++ t2, ?_⟩
      rw [ht2, ht1, List.append_assoc]

theorem asyncStep_bgfalse_pop_eq (thr : Nat → Nat) (st : Nat) (s : AsyncState)
    (choice : Nat) (q : SPage)
    (hpok : (s.inflight.getD (choice % s.inflight.length) defaultSPage).genOk = true)
    (hlast : s.queue.getLast? = some q) :
    asyncStep false thr st s choice = { s with
      queue := s.queue.dropLast
      inflight := s.inflight.eraseIdx (choice % s.inflight.length) ++ [q]
      numPagesGenerated := s.numPagesGenerated + 1
      g := { s.g with
        now := s.g.now + 1
        toRebuild := s.g.toRebuild.erase
          (s.inflight.getD (choice % s.inflight.length) defaultSPage).key
        events := s.g.events
          ++ [.complete (s.inflight.getD (choice % s.inflight.length) defaultSPage).key,
              .del (s.inflight.getD (choice % s.inflight.length) defaultSPage).key,
              .dispatch q.key] } } := by
  simp only [asyncStep, settleWith]
  repeat' split
  all_goals simp_all

theorem asyncStep_bgfalse_fin_eq (thr : Nat → Nat) (st : Nat) (s : AsyncState)
    (choice : Nat)
    (hpok : (s.inflight.getD (choice % s.inflight.length) defaultSPage).genOk = true)
    (hlast : s.queue.getLast? = none) (hsn : s.settle = none)
    (hcond : s.numPagesGenerated + 1 = s.numPagesToGenerate) :
    asyncStep false thr st s choice = { s with
      inflight := s.inflight.eraseIdx (choice % s.inflight.length)
      numPagesGenerated := s.numPagesGenerated + 1
      settle := some (.ok true)
      g := { s.g with
        now := s.g.now + 1
        toRebuild := s.g.toRebuild.erase
          (s.inflight.getD (choice % s.inflight.length) defaultSPage).key
        events := s.g.events
          ++ [.complete (s.inflight.getD (choice % s.inflight.length) defaultSPage).key,
              .del (s.inflight.getD (choice % s.inflight.length) defaultSPage).key] } } := by
  simp only [asyncStep, settleWith]
  repeat' split
  all_goals simp_all

theorem asyncStep_bgfalse_mid_eq (thr : Nat → Nat) (st : Nat) (s : AsyncState)
    (choice : Nat)
    (hpok : (s.inflight.getD (choice % s.inflight.length) defaultSPage).genOk = true)
    (hlast : s.queue.getLast? = none)
    (hcond : ¬(s.numPagesGenerated + 1 = s.numPagesToGenerate)) :
    asyncStep false thr st s choice = { s with
      inflight := s.inflight.eraseIdx (choice % s.inflight.length)
      numPagesGenerated := s.numPagesGenerated + 1
      g := { s.g with
        now := s.g.now + 1
        toRebuild := s.g.toRebuild.erase
          (s.inflight.getD (choice % s.inflight.length) defaultSPage).key
        events := s.g.events
          ++ [.complete (s.inflight.getD (choice % s.inflight.length) defaultSPage).key,
              .del (s.inflight.getD (choice % s.inflight.length) defaultSPage).key] } } := by
  simp only [asyncStep, settleWith]
  repeat' split
  all_goals simp_all

theorem countOf_take_cdd (a b c : String) (m : Nat) :
    countOf (List.take m [Ev.complete a, Ev.del b, Ev.dispatch c]) ≤ 0 := by
  match m with
  | 0 => simp [countOf]
  | 1 => simp [countOf, evDelta]
  | 2 => simp [countOf, evDelta]
  | n + 3 => simp [countOf, evDelta]

theorem countOf_take_cd (a b : String) (m : Nat) :
    countOf (List.take m [Ev.complete a, Ev.del b]) ≤ 0 := by
  match m with
  | 0 => simp [countOf]
  | 1 => simp [countOf, evDelta]
  | n + 2 => simp [countOf, evDelta]

theorem countOf_map_dispatch (l : List SPage) :
    countOf (l.map (fun p => Ev.dispatch p.key)) = l.length := by
  induction l with
  | nil => rfl
  | cons p rest ih =>
    simp only [List.map_cons, countOf, List.sum_cons, evDelta, List.length_cons] at ih ⊢
    rw [ih]
    push_cast
    omega

theorem completesCount_map_dispatch (l : List SPage) :
    completesCount (l.map (fun p => Ev.dispatch p.key)) = 0 := by
  induction l with
  | nil => rfl
  | cons p rest ih =>
    simp only [List.map_cons, completesCount, List.countP_cons] at ih ⊢
    simp [ih]

theorem asyncStep_c4 (thr : Nat → Nat) (st : Nat) (K : Nat) (pages : List SPage)
    (s : AsyncState) (choice : Nat)
    (hall : ∀ p ∈ pages, p.genOk = true) (hne : s.inflight ≠ [])
    (hinv : C4Inv K pages s) : C4Inv K pages (asyncStep false thr st s choice) := by
  obtain ⟨⟨j, hjl, hq, hd⟩, hcnt, hbnd, hpre, hcc, htot, hmem, hset, hacc⟩ := hinv
  have hlen : 0 < s.inflight.length := List.length_pos.2 hne
  have hilt : choice % s.inflight.length < s.inflight.length := Nat.mod_lt _ hlen
  have hpmem : s.inflight.getD (choice % s.inflight.length) defaultSPage ∈ s.inflight := by
    rw [List.getD_eq_getElem?_getD, List.getElem?_eq_getElem hilt]
    exact List.getElem_mem _
  have hpok := hall _ (hmem _ hpmem)
  have hsn : s.settle = none := by
    rcases hset with h | ⟨_, hinfl, _⟩
    · exact h
    · exact absurd hinfl hne
  have hacc2 := hacc hsn
  have helen : (s.inflight.eraseIdx (choice % s.inflight.length)).length
      = s.inflight.length - 1 := List.length_eraseIdx_of_lt hilt
  have hql : s.queue.length = j := by
    rw [hq, List.length_take]
    omega
  cases hlast : s.queue.getLast? with
  | some q =>
    rw [asyncStep_bgfalse_pop_eq thr st s choice q hpok hlast]
    obtain ⟨ys, hys⟩ := List.getLast?_eq_some_iff.1 hlast
    have hqne : s.queue ≠ [] := by
      rw [hys]
      simp
    have hj1 : 1 ≤ j := by
      by_contra hj0
      have : j = 0 := by omega
      rw [this] at hq
      exact hqne (by rw [hq, List.take_zero])
    have hdlen : 0 < (pages.drop K).length := by
      by_contra hlz
      have : (pages.drop K) = [] := by
        cases hh : pages.drop K with
        | nil => rfl
        | cons a t => rw [hh] at hlz; simp at hlz
      rw [this, List.take_nil] at hq
      exact hqne hq
    have hj1l : j - 1 < (pages.drop K).length := by omega
    have hqval : q = (pages.drop K).get ⟨j - 1, hj1l⟩ := by
      have h1 := List.getLast?_eq_getElem? s.queue
      rw [hlast, hql, hq] at h1
      have h2 : ((pages.drop K).take j)[j - 1]? = some ((pages.drop K).get ⟨j - 1, hj1l⟩) := by
        rw [List.getElem?_take_of_lt (by omega), List.getElem?_eq_getElem hj1l,
          List.get_eq_getElem]
      rw [h2] at h1
      exact (Option.some.inj h1.symm).symm
    have hdl : s.queue.dropLast = (pages.drop K).take (j - 1) := by
      rw [hq, List.dropLast_eq_take, List.length_take, List.take_take]
      congr 1
      omega
    have hdropstep : (pages.drop K).drop (j - 1)
        = ((pages.drop K).get ⟨j - 1, hj1l⟩) :: (pages.drop K).drop j := by
      have hj11 : j - 1 + 1 = j := by omega
      rw [List.drop_eq_getElem_cons hj1l, hj11, List.get_eq_getElem]
    refine ⟨⟨j - 1, by omega, hdl, ?_⟩, ?_, ?_, ?_, ?_, htot, ?_, Or.inl hsn, ?_⟩
    · rw [dispatches_append, hd, hdropstep, hqval]
      simp [dispatches, List.append_assoc]
    · rw [countOf_append, hcnt]
      simp only [List.length_append, helen, List.length_singleton]
      have : countOf [Ev.complete (s.inflight.getD (choice % s.inflight.length)
          defaultSPage).key,
          Ev.del (s.inflight.getD (choice % s.inflight.length) defaultSPage).key,
          Ev.dispatch q.key] = 0 := by
        simp [countOf, evDelta]
      rw [this]
      push_cast
      omega
    · simp only [List.length_append, helen, List.length_singleton]
      omega
    · intro i
      rw [List.take_append_eq_append_take, countOf_append]
      have h1 := hpre i
      have h2 := countOf_take_cdd
        (s.inflight.getD (choice % s.inflight.length) defaultSPage).key
        (s.inflight.getD (choice % s.inflight.length) defaultSPage).key q.key
        (i - s.g.events.length)
      omega
    · rw [completesCount_append, hcc]
      simp [completesCount]
    · intro p hp
      rcases List.mem_append.1 hp with h | h
      · exact hmem p (List.mem_of_mem_eraseIdx h)
      · rw [List.mem_singleton.1 h, hqval]
        exact List.drop_subset _ _ (List.getElem_mem _)
    · intro _
      simp only [List.length_append, helen, List.length_singleton, hdl, List.length_take]
      have h3 : min (j - 1) (pages.drop K).length = j - 1 := Nat.min_eq_left (by omega)
      rw [h3]
      omega
  | none =>
    have hqnil : s.queue = [] := by
      by_contra hqne
      have := List.getLast?_isSome.2 hqne
      rw [hlast] at this
      simp at this
    have hjdrop : (pages.drop K).drop j = (pages.drop K).drop 0 := by
      rcases List.take_eq_nil_iff.1 (hqnil ▸ hq).symm with h | h
      · rw [h]
      · rw [h]
        simp
    by_cases hcond : s.numPagesGenerated + 1 = s.numPagesToGenerate
    · rw [asyncStep_bgfalse_fin_eq thr st s choice hpok hlast hsn hcond]
      have hinfl1 : s.inflight.length = 1 := by
        rw [hqnil] at hacc2
        simp only [List.length_nil] at hacc2
        omega
      have herasenil : s.inflight.eraseIdx (choice % s.inflight.length) = [] :=
        List.eq_nil_of_length_eq_zero (by omega)
      refine ⟨⟨0, by omega, by rw [hqnil, List.take_zero], ?_⟩, ?_, ?_, ?_, ?_, htot, ?_,
        Or.inr ⟨rfl, herasenil, hqnil, ?_⟩, ?_⟩
      · rw [dispatches_append, hd, hjdrop]
        simp [dispatches]
      · rw [countOf_append, hcnt, herasenil]
        simp [countOf, evDelta]
        omega
      · rw [herasenil]
        simp
      · intro i
        rw [List.take_append_eq_append_take, countOf_append]
        have h1 := hpre i
        have h2 := countOf_take_cd
          (s.inflight.getD (choice % s.inflight.length) defaultSPage).key
          (s.inflight.getD (choice % s.inflight.length) defaultSPage).key
          (i - s.g.events.length)
        omega
      · rw [completesCount_append, hcc]
        simp [completesCount]
      · intro p hp
        exact hmem p (List.mem_of_mem_eraseIdx hp)
      · show s.numPagesGenerated + 1 = pages.length
        omega
      · intro h
        exact Option.noConfusion h
    · rw [asyncStep_bgfalse_mid_eq thr st s choice hpok hlast hcond]
      refine ⟨⟨0, by omega, by rw [hqnil, List.take_zero], ?_⟩, ?_, ?_, ?_, ?_, htot, ?_,
        Or.inl hsn, ?_⟩
      · rw [dispatches_append, hd, hjdrop]
        simp [dispatches]
      · rw [countOf_append, hcnt, helen]
        have : countOf [Ev.complete (s.inflight.getD (choice % s.inflight.length)
            defaultSPage).key,
            Ev.del (s.inflight.getD (choice % s.inflight.length) defaultSPage).key] = -1 := by
          simp [countOf, evDelta]
        rw [this]
        omega
      · rw [helen]
        omega
      · intro i
        rw [List.take_append_eq_append_take, countOf_append]
        have h1 := hpre i
        have h2 := countOf_take_cd
          (s.inflight.getD (choice % s.inflight.length) defaultSPage).key
          (s.inflight.getD (choice % s.inflight.length) defaultSPage).key
          (i - s.g.events.length)
        omega
      · rw [completesCount_append, hcc]
        simp [completesCount]
      · intro p hp
        exact hmem p (List.mem_of_mem_eraseIdx hp)
      · intro _
        rw [hqnil] at hacc2
        simp only [List.length_nil] at hacc2
        rw [helen, hqnil]
        simp only [List.length_nil]
        omega

theorem countOf_take_map_dispatch (l : List SPage) (i : Nat) :
    countOf (List.take i (l.map (fun p => Ev.dispatch p.key))) ≤ (l.length : Int) := by
  rw [← List.map_take, countOf_map_dispatch, List.length_take]
  have : min i l.length ≤ l.length := Nat.min_le_right _ _
  exact_mod_cast this

theorem asyncLoop_c4 (thr : Nat → Nat) (st : Nat) (K : Nat) (pages : List SPage)
    (fuel : Nat) (sched : List Nat) (s : AsyncState)
    (hall : ∀ p ∈ pages, p.genOk = true) (hinv : C4Inv K pages s) :
    C4Inv K pages (asyncLoop false thr st fuel sched s) := by
  induction fuel generalizing sched s with
  | zero => exact hinv
  | succ n ih =>
    rw [asyncLoop]
    by_cases hemp : s.inflight.isEmpty
    · rw [if_pos hemp]
      exact hinv
    · rw [if_neg hemp]
      exact ih sched.tail _ (asyncStep_c4 thr st K pages s (sched.headD 0) hall
        (by simpa using hemp) hinv)

theorem asyncInit_c4 (thr : Nat → Nat) (K : Nat) (pages : List SPage) (g : GenState)
    (hK : 1 ≤ K) (hKN : K < pages.length) (hev : g.events = []) :
    C4Inv K pages (asyncInit false thr K pages g) := by
  have htk : pages.take K ≠ [] := by
    cases pages with
    | nil => simp at hKN
    | cons a l =>
      cases K with
      | zero => omega
      | succ k => simp
  have hinit : asyncInit false thr K pages g
      = ⟨pages.drop K, pages.take K, 0, pages.length, true, none,
          { g with events := g.events ++ (pages.take K).map (fun p => .dispatch p.key) }⟩ := by
    rw [asyncInit, if_neg (by simpa using htk), if_neg (by simp)]
  rw [hinit]
  have htkl : (pages.take K).length = K := by
    rw [List.length_take]
    omega
  refine ⟨⟨(pages.drop K).length, le_refl _, (List.take_length _).symm, ?_⟩,
    ?_, ?_, ?_, ?_, rfl, ?_, Or.inl rfl, ?_⟩
  · simp only [hev, List.nil_append, List.drop_length, List.reverse_nil, List.map_nil,
      List.append_nil]
    exact dispatches_map_dispatch _
  · simp only [hev, List.nil_append]
    rw [countOf_map_dispatch, htkl]
  · rw [htkl]
  · intro i
    simp only [hev, List.nil_append]
    have := countOf_take_map_dispatch (pages.take K) i
    rw [htkl] at this
    exact this
  · simp only [hev, List.nil_append]
    rw [completesCount_map_dispatch]
  · intro p hp
    exact List.take_subset _ _ hp
  · intro _
    simp only [htkl, List.length_drop]
    omega

/-- C4: for a concurrent task over `N` pages with pool bound `K < N` (run
outside background mode, every page generating successfully): exactly the
first `K` pages, in queue order, are dispatched before any completion is
observed; every prefix of the trace keeps at most `K` generations in
flight; replacement dispatches drain the remaining queue from its tail, so
the full dispatch order is the first `K` pages followed by the rest in
reverse; and the task resolves true with all `N` pages completed. -/
theorem c4_throttled_pool (thr : Nat → Nat) (K : Nat) (pages : List SPage)
    (g : GenState) (sched : List Nat)
    (hK : 1 ≤ K) (hKN : K < pages.length)
    (hall : ∀ p ∈ pages, p.genOk = true) (hev : g.events = []) :
    (generatePagesAsyncThrottled false thr K pages g sched).g.events.takeWhile notCompleteEv
      = (pages.take K).map (fun p => Ev.dispatch p.key) ∧
    dispatches (generatePagesAsyncThrottled false thr K pages g sched).g.events
      = (pages.take K ++ (pages.drop K).reverse).map (fun p => p.key) ∧
    (∀ i, countOf ((generatePagesAsyncThrottled false thr K pages g sched).g.events.take i)
      ≤ (K : Int)) ∧
    (generatePagesAsyncThrottled false thr K pages g sched).settle = some (.ok true) ∧
    completesCount (generatePagesAsyncThrottled false thr K pages g sched).g.events
      = pages.length := by
  have hne : pages ≠ [] := by
    intro h
    rw [h] at hKN
    simp at hKN
  have htk : pages.take K ≠ [] := by
    cases pages with
    | nil => exact absurd rfl hne
    | cons a l =>
      cases K with
      | zero => omega
      | succ k => simp
  obtain ⟨⟨j, hjl, hq, hd⟩, hcnt, hbnd, hpre, hcc, htot, hmem, hset, hacc⟩ :=
    asyncLoop_c4 thr g.now K pages pages.length sched _ hall
      (asyncInit_c4 thr K pages g hK hKN hev)
  have hsome := asyncThrottled_settled false thr K pages g sched hK hne
  rcases hset with hnone | ⟨hst, _, hqnil, hngen⟩
  · rw [show (asyncLoop false thr g.now pages.length sched
        (asyncInit false thr K pages g)).settle
        = (generatePagesAsyncThrottled false thr K pages g sched).settle from rfl] at hnone
    rw [hnone] at hsome
    simp at hsome
  have hdlen : 0 < (pages.drop K).length := by
    rw [List.length_drop]
    omega
  have hj0 : j = 0 := by
    rcases List.take_eq_nil_iff.1 (hqnil ▸ hq).symm with h | h
    · exact h
    · rw [h] at hdlen
      simp at hdlen
  refine ⟨?_, ?_, hpre, hst, ?_⟩
  · have hinit : asyncInit false thr K pages g
        = ⟨pages.drop K, pages.take K, 0, pages.length, true, none,
            { g with events := g.events ++ (pages.take K).map (fun p => .dispatch p.key) }⟩ := by
      rw [asyncInit, if_neg (by simpa using htk), if_neg (by simp)]
    cases hpl : pages.length with
    | zero => omega
    | succ m =>
      have hun : generatePagesAsyncThrottled false thr K pages g sched
          = asyncLoop false thr g.now m sched.tail (asyncStep false thr g.now
              ⟨pages.drop K, pages.take K, 0, pages.length, true, none,
                { g with events := g.events ++ (pages.take K).map (fun p => .dispatch p.key) }⟩
              (sched.headD 0)) := by
        rw [generatePagesAsyncThrottled, hinit]
        nth_rewrite 1 [hpl]
        rw [asyncLoop, if_neg (by simpa using htk)]
      obtain ⟨t1, ht1⟩ := asyncStep_events_complete false thr g.now
        ⟨pages.drop K, pages.take K, 0, pages.length, true, none,
          { g with events := g.events ++ (pages.take K).map (fun p => .dispatch p.key) }⟩
        (sched.headD 0)
      obtain ⟨t2, ht2⟩ := asyncLoop_events_mono false thr g.now m sched.tail
        (asyncStep false thr g.now
          ⟨pages.drop K, pages.take K, 0, pages.length, true, none,
            { g with events := g.events ++ (pages.take K).map (fun p => .dispatch p.key) }⟩
          (sched.headD 0))
      rw [hun, ht2, ht1]
      simp only [hev, List.nil_append, List.append_assoc, List.cons_append]
      exact takeWhile_all_append notCompleteEv _ _ _
        (fun x hx => by
          obtain ⟨p, _, hpx⟩ := List.mem_map.1 hx
          rw [← hpx]
          rfl)
        rfl
  · rw [hj0, List.drop_zero] at hd
    rw [show dispatches (generatePagesAsyncThrottled false thr K pages g sched).g.events
        = dispatches (asyncLoop false thr g.now pages.length sched
            (asyncInit false thr K pages g)).g.events from rfl, hd, List.map_append]
  · rw [show completesCount (generatePagesAsyncThrottled false thr K pages g sched).g.events
        = completesCount (asyncLoop false thr g.now pages.length sched
            (asyncInit false thr K pages g)).g.events from rfl, hcc]
    exact hngen

theorem c4_throttled_pool_witness :
    ((generatePagesAsyncThrottled false (fun _ => 0) 1
        [⟨"a", "a.md", true⟩, ⟨"b", "b.md", true⟩, ⟨"c", "c.md", true⟩]
        ⟨0, [], false, []⟩ []).g.events.takeWhile notCompleteEv
      = [Ev.dispatch "a"]) ∧
    (dispatches (generatePagesAsyncThrottled false (fun _ => 0) 1
        [⟨"a", "a.md", true⟩, ⟨"b", "b.md", true⟩, ⟨"c", "c.md", true⟩]
        ⟨0, [], false, []⟩ []).g.events
      = ["a", "c", "b"]) ∧
    (countOf (List.take 2 (generatePagesAsyncThrottled false (fun _ => 0) 1
        [⟨"a", "a.md", true⟩, ⟨"b", "b.md", true⟩, ⟨"c", "c.md", true⟩]
        ⟨0, [], false, []⟩ []).g.events) ≤ (1 : Int)) ∧
    ((generatePagesAsyncThrottled false (fun _ => 0) 1
        [⟨"a", "a.md", true⟩, ⟨"b", "b.md", true⟩, ⟨"c", "c.md", true⟩]
        ⟨0, [], false, []⟩ []).settle = some (.ok true)) ∧
    (completesCount (generatePagesAsyncThrottled false (fun _ => 0) 1
        [⟨"a", "a.md", true⟩, ⟨"b", "b.md", true⟩, ⟨"c", "c.md", true⟩]
        ⟨0, [], false, []⟩ []).g.events = 3) :=
  ⟨(c4_throttled_pool (fun _ => 0) 1
      [⟨"a", "a.md", true⟩, ⟨"b", "b.md", true⟩, ⟨"c", "c.md", true⟩]
      ⟨0, [], false, []⟩ [] (by decide) (by decide) (by decide) rfl).1,
   (c4_throttled_pool (fun _ => 0) 1
      [⟨"a", "a.md", true⟩, ⟨"b", "b.md", true⟩, ⟨"c", "c.md", true⟩]
      ⟨0, [], false, []⟩ [] (by decide) (by decide) (by decide) rfl).2.1,
   (c4_throttled_pool (fun _ => 0) 1
      [⟨"a", "a.md", true⟩, ⟨"b", "b.md", true⟩, ⟨"c", "c.md", true⟩]
      ⟨0, [], false, []⟩ [] (by decide) (by decide) (by decide) rfl).2.2.1 2,
   (c4_throttled_pool (fun _ => 0) 1
      [⟨"a", "a.md", true⟩, ⟨"b", "b.md", true⟩, ⟨"c", "c.md", true⟩]
      ⟨0, [], false, []⟩ [] (by decide) (by decide) (by decide) rfl).2.2.2.1,
   (c4_throttled_pool (fun _ => 0) 1
      [⟨"a", "a.md", true⟩, ⟨"b", "b.md", true⟩, ⟨"c", "c.md", true⟩]
      ⟨0, [], false, []⟩ [] (by decide) (by decide) (by decide) rfl).2.2.2.2⟩

/-- Sequential cancellation at an arbitrary check point: if the horizon
stays at or below the start time through the checks of the `done` pages
(which all generate) and has passed it by the next check, the loop runs
exactly the `done` pages, then cancels: it reports false, the pending set
loses exactly the `done` keys, and nothing further is dispatched. -/
theorem seqGo_cancel_mid (thr : Nat → Nat) (st : Nat)
    (hmono : ∀ x y, x ≤ y → thr x ≤ thr y) (done rest : List SPage) (g : GenState) :
    (∀ q ∈ done, q.genOk = true) → rest ≠ [] →
    (∀ i, i + 1 ≤ done.length → thr (g.now + i) ≤ st) →
    st < thr (g.now + done.length) →
    ∃ n, generatePagesSequentialGo true thr st (done ++ rest) g true
      = .ok (false, ⟨n, done.foldl (fun tr p => tr.erase p.key) g.toRebuild, true,
          g.events ++ done.flatMap
            (fun p => [.dispatch p.key, .complete p.key, .del p.key])⟩) := by
  induction done generalizing g with
  | nil =>
    intro _ hrest _ htrip
    rw [List.length_nil, Nat.add_zero] at htrip
    obtain ⟨n, hn⟩ := seqGo_alltrip thr st hmono rest g true htrip hrest
    refine ⟨n, ?_⟩
    rw [List.nil_append, hn, List.foldl_nil, List.flatMap_nil, List.append_nil]
  | cons p done2 ih =>
    intro hall hrest hpre htrip
    rw [List.cons_append, generatePagesSequentialGo,
      if_neg (fun hc => absurd hc.2 (Nat.not_lt.2 (by
        have := hpre 0 (by simp)
        rwa [Nat.add_zero] at this))),
      if_pos (hall p (List.mem_cons_self p done2))]
    obtain ⟨n, hn⟩ := ih
      { g with
        now := g.now + 1
        toRebuild := g.toRebuild.erase p.key
        events := g.events ++ [.dispatch p.key, .complete p.key, .del p.key] }
      (fun q hq => hall q (List.mem_cons_of_mem p hq)) hrest
      (fun i hi => by
        have := hpre (i + 1) (by simpa using hi)
        rwa [show g.now + (i + 1) = g.now + 1 + i from by omega] at this)
      (by
        show st < thr (g.now + 1 + done2.length)
        rwa [show (p :: done2).length = done2.length + 1 from rfl,
          show g.now + (done2.length + 1) = g.now + 1 + done2.length from by omega] at htrip)
    refine ⟨n, ?_⟩
    rw [hn]
    simp [List.append_assoc]

theorem asyncLoop_empty (bg : Bool) (thr : Nat → Nat) (st : Nat) (fuel : Nat)
    (sched : List Nat) (s : AsyncState) (h : s.inflight = []) :
    asyncLoop bg thr st fuel sched s = s := by
  cases fuel with
  | zero => rfl
  | succ n =>
    rw [asyncLoop, if_pos (by simp [h])]

/-- Fuel splitting for the pool loop. -/
theorem asyncLoop_add (bg : Bool) (thr : Nat → Nat) (st : Nat) (a b : Nat)
    (sched : List Nat) (s : AsyncState) :
    asyncLoop bg thr st (a + b) sched s
      = asyncLoop bg thr st b (sched.drop a) (asyncLoop bg thr st a sched s) := by
  induction a generalizing sched s with
  | zero =>
    rw [Nat.zero_add, List.drop_zero]
    rfl
  | succ n ih =>
    by_cases hemp : s.inflight.isEmpty
    · rw [asyncLoop_empty bg thr st (n + 1 + b) sched s (by simpa using hemp),
        asyncLoop_empty bg thr st (n + 1) sched s (by simpa using hemp),
        asyncLoop_empty bg thr st b _ s (by simpa using hemp)]
    · rw [show n + 1 + b = (n + b) + 1 from by omega, asyncLoop, if_neg hemp,
        asyncLoop, if_neg hemp, ih]
      rw [← List.drop_one, List.drop_drop]
      congr 2
      omega

theorem asyncStep_notrip_pop_eq (bg : Bool) (thr : Nat → Nat) (st : Nat)
    (s : AsyncState) (choice : Nat) (q : SPage)
    (hpok : (s.inflight.getD (choice % s.inflight.length) defaultSPage).genOk = true)
    (hlast : s.queue.getLast? = some q)
    (hng : ¬(bg = true ∧ st < thr (s.g.now + 1))) :
    asyncStep bg thr st s choice = { s with
      queue := s.queue.dropLast
      inflight := s.inflight.eraseIdx (choice % s.inflight.length) ++ [q]
      numPagesGenerated := s.numPagesGenerated + 1
      g := { s.g with
        now := s.g.now + 1
        toRebuild := s.g.toRebuild.erase
          (s.inflight.getD (choice % s.inflight.length) defaultSPage).key
        events := s.g.events
          ++ [.complete (s.inflight.getD (choice % s.inflight.length) defaultSPage).key,
              .del (s.inflight.getD (choice % s.inflight.length) defaultSPage).key,
              .dispatch q.key] } } := by
  simp only [asyncStep, settleWith]
  repeat' split
  all_goals simp_all

theorem asyncStep_notrip_mid_eq (bg : Bool) (thr : Nat → Nat) (st : Nat)
    (s : AsyncState) (choice : Nat)
    (hpok : (s.inflight.getD (choice % s.inflight.length) defaultSPage).genOk = true)
    (hlast : s.queue.getLast? = none)
    (hcond : ¬(s.numPagesGenerated + 1 = s.numPagesToGenerate))
    (hng : ¬(bg = true ∧ st < thr (s.g.now + 1))) :
    asyncStep bg thr st s choice = { s with
      inflight := s.inflight.eraseIdx (choice % s.inflight.length)
      numPagesGenerated := s.numPagesGenerated + 1
      g := { s.g with
        now := s.g.now + 1
        toRebuild := s.g.toRebuild.erase
          (s.inflight.getD (choice % s.inflight.length) defaultSPage).key
        events := s.g.events
          ++ [.complete (s.inflight.getD (choice % s.inflight.length) defaultSPage).key,
              .del (s.inflight.getD (choice % s.inflight.length) defaultSPage).key] } } := by
  simp only [asyncStep, settleWith]
  repeat' split
  all_goals simp_all

/-- Phase one of a mid-run cancellation: as long as the horizon has stayed
at or below the start time, the pool runs normally — after `i` completion
events the promise is pending, the context clean, progress equals `i`, the
clock has advanced by `i`, the accounting adds up, work remains in flight,
and all recorded pages come from the task's list. -/
theorem asyncPhase1 (thr : Nat → Nat) (K : Nat) (pages : List SPage) (g : GenState)
    (sched : List Nat) (c : Nat)
    (hK : 1 ≤ K) (hall : ∀ p ∈ pages, p.genOk = true) (hcN : c + 1 ≤ pages.length)
    (hinit : thr g.now ≤ g.now)
    (hpre : ∀ i, 1 ≤ i → i ≤ c → thr (g.now + i) ≤ g.now) :
    ∀ i, i ≤ c →
      (asyncLoop true thr g.now i sched (asyncInit true thr K pages g)).settle = none ∧
      (asyncLoop true thr g.now i sched (asyncInit true thr K pages g)).isCompleted = true ∧
      (asyncLoop true thr g.now i sched (asyncInit true thr K pages g)).numPagesGenerated
        = i ∧
      (asyncLoop true thr g.now i sched (asyncInit true thr K pages g)).g.now = g.now + i ∧
      (asyncLoop true thr g.now i sched (asyncInit true thr K pages g)).numPagesGenerated
        + (asyncLoop true thr g.now i sched (asyncInit true thr K pages g)).inflight.length
        + (asyncLoop true thr g.now i sched (asyncInit true thr K pages g)).queue.length
        = pages.length ∧
      (asyncLoop true thr g.now i sched (asyncInit true thr K pages g)).inflight ≠ [] ∧
      (∀ p ∈ (asyncLoop true thr g.now i sched (asyncInit true thr K pages g)).inflight,
        p ∈ pages) ∧
      (∀ p ∈ (asyncLoop true thr g.now i sched (asyncInit true thr K pages g)).queue,
        p ∈ pages) ∧
      (asyncLoop true thr g.now i sched (asyncInit true thr K pages g)).numPagesToGenerate
        = pages.length := by
  have hne : pages ≠ [] := by
    intro h
    rw [h] at hcN
    simp at hcN
  have htk : pages.take K ≠ [] := by
    cases pages with
    | nil => exact absurd rfl hne
    | cons a l =>
      cases K with
      | zero => omega
      | succ k => simp
  have hinitEq : asyncInit true thr K pages g
      = ⟨pages.drop K, pages.take K, 0, pages.length, true, none,
          { g with events := g.events ++ (pages.take K).map (fun p => .dispatch p.key) }⟩ := by
    rw [asyncInit, if_neg (by simpa using htk),
      if_neg (fun hc => absurd hc.2 (Nat.not_lt.2 hinit))]
  intro i
  induction i with
  | zero =>
    intro _
    rw [show asyncLoop true thr g.now 0 sched (asyncInit true thr K pages g)
        = asyncInit true thr K pages g from rfl, hinitEq]
    refine ⟨rfl, rfl, rfl, rfl, ?_, by simpa using htk, ?_, ?_, rfl⟩
    · show 0 + (pages.take K).length + (pages.drop K).length = pages.length
      rw [List.length_take, List.length_drop]
      omega
    · intro p hp
      exact List.take_subset _ _ hp
    · intro p hp
      exact List.drop_subset _ _ hp
  | succ i ih =>
    intro hi1
    obtain ⟨hsn, hic, hgen, hnow, hcnt, hinfne, hmi, hmq, htotal⟩ := ih (by omega)
    have hilen : 0 < (asyncLoop true thr g.now i sched
        (asyncInit true thr K pages g)).inflight.length := List.length_pos.2 hinfne
    have hstep : asyncLoop true thr g.now (i + 1) sched (asyncInit true thr K pages g)
        = asyncStep true thr g.now
            (asyncLoop true thr g.now i sched (asyncInit true thr K pages g))
            ((sched.drop i).headD 0) := by
      rw [asyncLoop_add true thr g.now i 1 sched, asyncLoop,
        if_neg (by simpa using hinfne)]
      rfl
    have hpmem : (asyncLoop true thr g.now i sched
          (asyncInit true thr K pages g)).inflight.getD
          (((sched.drop i).headD 0) % (asyncLoop true thr g.now i sched
            (asyncInit true thr K pages g)).inflight.length) defaultSPage
        ∈ (asyncLoop true thr g.now i sched (asyncInit true thr K pages g)).inflight := by
      rw [List.getD_eq_getElem?_getD, List.getElem?_eq_getElem (Nat.mod_lt _ hilen)]
      exact List.getElem_mem _
    have hpok := hall _ (hmi _ hpmem)
    have hng : ¬(true = true ∧ g.now < thr ((asyncLoop true thr g.now i sched
        (asyncInit true thr K pages g)).g.now + 1)) := by
      intro hc
      have hlt := hc.2
      rw [hnow, show g.now + i + 1 = g.now + (i + 1) from by omega] at hlt
      exact absurd hlt (Nat.not_lt.2 (hpre (i + 1) (by omega) (by omega)))
    cases hlast : (asyncLoop true thr g.now i sched
        (asyncInit true thr K pages g)).queue.getLast? with
    | some q =>
      obtain ⟨ys, hys⟩ := List.getLast?_eq_some_iff.1 hlast
      have hqmem : q ∈ pages := hmq q (by rw [hys]; simp)
      rw [hstep, asyncStep_notrip_pop_eq true thr g.now _ _ q hpok hlast hng]
      refine ⟨hsn, hic, by rw [hgen], ?_, ?_, by simp, ?_, ?_, htotal⟩
      · show (asyncLoop true thr g.now i sched
            (asyncInit true thr K pages g)).g.now + 1 = g.now + (i + 1)
        rw [hnow]
        omega
      · show (asyncLoop true thr g.now i sched
              (asyncInit true thr K pages g)).numPagesGenerated + 1
            + ((asyncLoop true thr g.now i sched
                (asyncInit true thr K pages g)).inflight.eraseIdx _ ++ [q]).length
            + (asyncLoop true thr g.now i sched
                (asyncInit true thr K pages g)).queue.dropLast.length = pages.length
        rw [List.length_append, List.length_eraseIdx_of_lt (Nat.mod_lt _ hilen),
          List.length_dropLast, List.length_singleton]
        have hqlen : 0 < (asyncLoop true thr g.now i sched
            (asyncInit true thr K pages g)).queue.length := by
          rw [hys]
          simp
        omega
      · intro p hp
        rcases List.mem_append.1 hp with h | h
        · exact hmi p (List.mem_of_mem_eraseIdx h)
        · rw [List.mem_singleton.1 h]
          exact hqmem
      · intro p hp
        exact hmq p (List.dropLast_subset _ hp)
    | none =>
      have hqnil : (asyncLoop true thr g.now i sched
          (asyncInit true thr K pages g)).queue = [] := by
        by_contra hqne
        have := List.getLast?_isSome.2 hqne
        rw [hlast] at this
        simp at this
      have hcond : ¬((asyncLoop true thr g.now i sched
            (asyncInit true thr K pages g)).numPagesGenerated + 1
          = (asyncLoop true thr g.now i sched
            (asyncInit true thr K pages g)).numPagesToGenerate) := by
        rw [hgen, htotal]
        omega
      rw [hstep, asyncStep_notrip_mid_eq true thr g.now _ _ hpok hlast hcond hng]
      have hqlen0 : (asyncLoop true thr g.now i sched
          (asyncInit true thr K pages g)).queue.length = 0 := by
        rw [hqnil]
        rfl
      refine ⟨hsn, hic, by rw [hgen], ?_, ?_, ?_, ?_, ?_, htotal⟩
      · show (asyncLoop true thr g.now i sched
            (asyncInit true thr K pages g)).g.now + 1 = g.now + (i + 1)
        rw [hnow]
        omega
      · show (asyncLoop true thr g.now i sched
              (asyncInit true thr K pages g)).numPagesGenerated + 1
            + ((asyncLoop true thr g.now i sched
                (asyncInit true thr K pages g)).inflight.eraseIdx _).length
            + (asyncLoop true thr g.now i sched
                (asyncInit true thr K pages g)).queue.length = pages.length
        rw [List.length_eraseIdx_of_lt (Nat.mod_lt _ hilen)]
        omega
      · show (asyncLoop true thr g.now i sched
            (asyncInit true thr K pages g)).inflight.eraseIdx
              (((sched.drop i).headD 0) % (asyncLoop true thr g.now i sched
                (asyncInit true thr K pages g)).inflight.length) ≠ []
        intro hnil
        have hl0 : ((asyncLoop true thr g.now i sched
            (asyncInit true thr K pages g)).inflight.eraseIdx
              (((sched.drop i).headD 0) % (asyncLoop true thr g.now i sched
                (asyncInit true thr K pages g)).inflight.length)).length = 0 := by
          rw [hnil]
          rfl
        rw [List.length_eraseIdx_of_lt (Nat.mod_lt _ hilen)] at hl0
        omega
      · intro p hp
        exact hmi p (List.mem_of_mem_eraseIdx hp)
      · intro p hp
        rw [hqnil] at hp
        exact absurd hp (List.not_mem_nil p)

/-- Outside background-build mode the sequential loop never reads the
horizon: the result is identical for any two horizon functions. -/
theorem seqGo_thr_irrel (thr thr2 : Nat → Nat) (st : Nat) (pages : List SPage)
    (g : GenState) (c : Bool) :
    generatePagesSequentialGo false thr st pages g c
      = generatePagesSequentialGo false thr2 st pages g c := by
  induction pages generalizing g c with
  | nil => rfl
  | cons p rest ih =>
    rw [generatePagesSequentialGo, generatePagesSequentialGo,
      if_neg (show ¬(false = true ∧ st < thr g.now) from by simp),
      if_neg (show ¬(false = true ∧ st < thr2 g.now) from by simp)]
    by_cases hp : p.genOk = true
    · rw [if_pos hp, if_pos hp, ih]
    · rw [if_neg hp, if_neg hp]

theorem asyncStep_thr_irrel (thr thr2 : Nat → Nat) (st : Nat) (s : AsyncState)
    (choice : Nat) :
    asyncStep false thr st s choice = asyncStep false thr2 st s choice := by
  simp only [asyncStep, settleWith, Bool.false_eq_true, false_and, if_false]

theorem asyncInit_thr_irrel (thr thr2 : Nat → Nat) (K : Nat) (pages : List SPage)
    (g : GenState) :
    asyncInit false thr K pages g = asyncInit false thr2 K pages g := by
  simp only [asyncInit, Bool.false_eq_true, false_and, if_false]

theorem asyncLoop_thr_irrel (thr thr2 : Nat → Nat) (st : Nat) (fuel : Nat)
    (sched : List Nat) (s : AsyncState) :
    asyncLoop false thr st fuel sched s = asyncLoop false thr2 st fuel sched s := by
  induction fuel generalizing sched s with
  | zero => rfl
  | succ n ih =>
    rw [asyncLoop, asyncLoop]
    by_cases hemp : s.inflight.isEmpty
    · rw [if_pos hemp, if_pos hemp]
    · rw [if_neg hemp, if_neg hemp, asyncStep_thr_irrel thr thr2, ih]

theorem asyncThrottled_thr_irrel (thr thr2 : Nat → Nat) (K : Nat) (pages : List SPage)
    (g : GenState) (sched : List Nat) :
    generatePagesAsyncThrottled false thr K pages g sched
      = generatePagesAsyncThrottled false thr2 K pages g sched := by
  rw [generatePagesAsyncThrottled, generatePagesAsyncThrottled,
    asyncInit_thr_irrel thr thr2, asyncLoop_thr_irrel thr thr2]

/-- C2 (amended): in background-build mode, under a horizon that is
non-decreasing over time, advancing the horizon past the task start time at
*any* point of the run cancels the task at its next cooperative check
point.  Sequentially: if the horizon is still at or below the start time
through the checks of an arbitrary prefix of (successfully generating)
pages and has passed it by the next check, exactly that prefix runs, the
task reports false, and nothing further is dispatched.  Concurrently: if
the horizon is still at or below the start time through the first `c`
completion events and has passed it by the next one, the promise resolves
false and the dispatch record of the whole run equals the record after
those `c` completions — no replacement callback is dispatched after the
trip.  Outside background-build mode the horizon is never consulted: both
generators return identical results for any two horizon functions. -/
theorem c2_cancellation_amended (thr : Nat → Nat) (K : Nat) (g : GenState)
    (hmono : ∀ x y, x ≤ y → thr x ≤ thr y) :
    (∀ done rest, (∀ q ∈ done, q.genOk = true) → rest ≠ [] →
      (∀ i, i + 1 ≤ done.length → thr (g.now + i) ≤ g.now) →
      g.now < thr (g.now + done.length) →
      ∃ n, generatePagesSequential true thr (done ++ rest) g
        = .ok (false, ⟨n, done.foldl (fun tr p => tr.erase p.key) g.toRebuild, true,
            g.events ++ done.flatMap
              (fun p => [.dispatch p.key, .complete p.key, .del p.key])⟩)) ∧
    (∀ pages sched c, 1 ≤ K → (∀ p ∈ pages, p.genOk = true) → c + 1 ≤ pages.length →
      thr g.now ≤ g.now →
      (∀ i, 1 ≤ i → i ≤ c → thr (g.now + i) ≤ g.now) →
      g.now < thr (g.now + (c + 1)) →
      (generatePagesAsyncThrottled true thr K pages g sched).settle = some (.ok false) ∧
      dispatches (generatePagesAsyncThrottled true thr K pages g sched).g.events
        = dispatches (asyncLoop true thr g.now c sched
            (asyncInit true thr K pages g)).g.events) ∧
    (∀ thr2 pages, generatePagesSequential false thr pages g
        = generatePagesSequential false thr2 pages g) ∧
    (∀ thr2 pages sched, generatePagesAsyncThrottled false thr K pages g sched
        = generatePagesAsyncThrottled false thr2 K pages g sched) := by
  refine ⟨?_, ?_, ?_, ?_⟩
  · intro done rest hall hrest hpre htrip
    rw [generatePagesSequential]
    exact seqGo_cancel_mid thr g.now hmono done rest g hall hrest hpre htrip
  · intro pages sched c hK hall hcN hinit hpre htrip
    obtain ⟨hsn, hic, hgen, hnow, hcnt, hinfne, hmi, hmq, htotal⟩ :=
      asyncPhase1 thr K pages g sched c hK hall hcN hinit hpre c (le_refl c)
    have hsplit : generatePagesAsyncThrottled true thr K pages g sched
        = asyncLoop true thr g.now (pages.length - c) (sched.drop c)
            (asyncLoop true thr g.now c sched (asyncInit true thr K pages g)) := by
      rw [generatePagesAsyncThrottled]
      nth_rewrite 1 [show pages.length = c + (pages.length - c) from by omega]
      rw [asyncLoop_add]
    have hstep2 : asyncLoop true thr g.now (pages.length - c) (sched.drop c)
          (asyncLoop true thr g.now c sched (asyncInit true thr K pages g))
        = asyncLoop true thr g.now (pages.length - c - 1) (sched.drop c).tail
            (asyncStep true thr g.now
              (asyncLoop true thr g.now c sched (asyncInit true thr K pages g))
              ((sched.drop c).headD 0)) := by
      nth_rewrite 1 [show pages.length - c = (pages.length - c - 1) + 1 from by omega]
      rw [asyncLoop, if_neg (by simpa using hinfne)]
    have hguard : g.now < thr ((asyncLoop true thr g.now c sched
        (asyncInit true thr K pages g)).g.now + 1) := by
      rw [hnow, show g.now + c + 1 = g.now + (c + 1) from by omega]
      exact htrip
    have hfirst := asyncStep_first_settle thr g.now
      (asyncLoop true thr g.now c sched (asyncInit true thr K pages g))
      ((sched.drop c).headD 0) hsn hic (fun p hp => hall p (hmi p hp)) hinfne hguard
    have hc1 : Cancelled thr g.now (asyncStep true thr g.now
        (asyncLoop true thr g.now c sched (asyncInit true thr K pages g))
        ((sched.drop c).headD 0)) := by
      refine ⟨hfirst.1, hfirst.2, g.now + (c + 1), ?_, htrip⟩
      rw [asyncStep_now, hnow]
      omega
    have hd1 := asyncStep_dispatches_trip thr g.now
      (asyncLoop true thr g.now c sched (asyncInit true thr K pages g))
      ((sched.drop c).headD 0) hguard
    obtain ⟨hc2, hd2⟩ := asyncLoop_cancelled thr g.now (pages.length - c - 1)
      (sched.drop c).tail _ hmono hc1
    constructor
    · rw [hsplit, hstep2]
      exact hc2.1
    · rw [hsplit, hstep2, hd2, hd1]
  · intro thr2 pages
    rw [generatePagesSequential, generatePagesSequential]
    exact seqGo_thr_irrel thr thr2 g.now pages g true
  · intro thr2 pages sched
    exact asyncThrottled_thr_irrel thr thr2 K pages g sched

theorem c2_cancellation_amended_witness :
    (∃ n, generatePagesSequential true (fun t => if t ≤ 1 then 0 else 1)
        [⟨"a", "a.md", true⟩, ⟨"b", "b.md", true⟩, ⟨"c", "c.md", true⟩] ⟨0, [], false, []⟩
      = .ok (false, ⟨n, [],
          true,
          [Ev.dispatch "a", Ev.complete "a", Ev.del "a",
           Ev.dispatch "b", Ev.complete "b", Ev.del "b"]⟩)) ∧
    ((generatePagesAsyncThrottled true (fun t => if t ≤ 1 then 0 else 1) 1
          [⟨"a", "a.md", true⟩, ⟨"b", "b.md", true⟩, ⟨"c", "c.md", true⟩]
          ⟨0, [], false, []⟩ []).settle = some (.ok false) ∧
      dispatches (generatePagesAsyncThrottled true (fun t => if t ≤ 1 then 0 else 1) 1
          [⟨"a", "a.md", true⟩, ⟨"b", "b.md", true⟩, ⟨"c", "c.md", true⟩]
          ⟨0, [], false, []⟩ []).g.events = ["a", "c"]) ∧
    (generatePagesSequential false (fun t => if t ≤ 1 then 0 else 1)
        [⟨"a", "a.md", true⟩] ⟨0, [], false, []⟩
      = generatePagesSequential false (fun _ => 7)
          [⟨"a", "a.md", true⟩] ⟨0, [], false, []⟩) ∧
    (generatePagesAsyncThrottled false (fun t => if t ≤ 1 then 0 else 1) 1
        [⟨"a", "a.md", true⟩] ⟨0, [], false, []⟩ []
      = generatePagesAsyncThrottled false (fun _ => 7) 1
          [⟨"a", "a.md", true⟩] ⟨0, [], false, []⟩ []) := by
  have hm : ∀ x y : Nat, x ≤ y →
      (if x ≤ 1 then 0 else 1 : Nat) ≤ (if y ≤ 1 then 0 else 1 : Nat) := by
    intro x y hxy
    by_cases hx : x ≤ 1
    · by_cases hy : y ≤ 1
      · simp [hx, hy]
      · simp [hx, hy]
    · have hy : ¬ y ≤ 1 := by omega
      simp [hx, hy]
  refine ⟨(c2_cancellation_amended (fun t => if t ≤ 1 then 0 else 1) 1 ⟨0, [], false, []⟩
      hm).1
      [⟨"a", "a.md", true⟩, ⟨"b", "b.md", true⟩] [⟨"c", "c.md", true⟩]
      (by decide) (by decide) ?_ (by decide),
    (c2_cancellation_amended (fun t => if t ≤ 1 then 0 else 1) 1 ⟨0, [], false, []⟩
      hm).2.1
      [⟨"a", "a.md", true⟩, ⟨"b", "b.md", true⟩, ⟨"c", "c.md", true⟩] [] 1
      (by decide) (by decide) (by decide) (by decide) ?_ (by decide),
    (c2_cancellation_amended (fun t => if t ≤ 1 then 0 else 1) 1 ⟨0, [], false, []⟩
      hm).2.2.1
      (fun _ => 7) [⟨"a", "a.md", true⟩],
    (c2_cancellation_amended (fun t => if t ≤ 1 then 0 else 1) 1 ⟨0, [], false, []⟩
      hm).2.2.2
      (fun _ => 7) [⟨"a", "a.md", true⟩] []⟩
  · intro i hi
    have h01 : i = 0 ∨ i = 1 := by
      simp only [List.length_cons, List.length_nil] at hi
      omega
    rcases h01 with h | h
    · subst h
      decide
    · subst h
      decide
  · intro i h1 h2
    have h : i = 1 := by omega
    subst h
    decide
